import Mathlib

/-!
# Verification of the fourengine Connect-Four solver core

This file gives a shallow embedding, in Lean, of the core of the
`fourengine` Connect-Four solver (bitboards, positions, scores, the
two-level transposition table, the opening-book hex parser and the
negamax search engine), translated from the Rust sources
(`src/bitboard.rs`, `src/position.rs`, `src/score.rs`,
`src/move_bitmap.rs`, `src/trans_table.rs`, `src/book.rs`,
`src/heuristic.rs`, `src/engine.rs`), together with proofs about it.

Machine `u64` values are modelled as `Nat`; arithmetic that wraps in
release Rust (`+`, `-`, `<<`, `!`) is modelled with explicit reductions
modulo `2 ^ 64`.
-/

/-! ## Board constants (from `src/bitboard.rs`) -/

def BOARD_WIDTH : Nat := 7

def BOARD_HEIGHT : Nat := 6

def POSITION_BITS : Nat := (BOARD_HEIGHT + 1) * BOARD_WIDTH

def BIT_HEIGHT : Nat := BOARD_HEIGHT + 1

def ALL_BITS : Nat := (1 <<< (BIT_HEIGHT * BOARD_WIDTH)) - 1

def FIRST_COLUMN : Nat := (1 <<< BIT_HEIGHT) - 1

def BOTTOM_ROW : Nat := ALL_BITS / FIRST_COLUMN

def GUTTER_ROW : Nat := BOTTOM_ROW <<< BOARD_HEIGHT

def FULL_BOARD : Nat := ALL_BITS ^^^ GUTTER_ROW

def LEFT_HALF : Nat :=
  FIRST_COLUMN ||| (FIRST_COLUMN <<< BIT_HEIGHT) |||
    (FIRST_COLUMN <<< (2 * BIT_HEIGHT)) ||| (FIRST_COLUMN <<< (3 * BIT_HEIGHT))

def ODD_ROWS : Nat := BOTTOM_ROW * 0b010101

def EVEN_ROWS : Nat := BOTTOM_ROW * 0b101010

/-! ## 64-bit machine arithmetic helpers -/

/-- `2 ^ 64`, the modulus of `u64` arithmetic. -/
def M64 : Nat := 2 ^ 64

/-- Wrapping `u64` addition. -/
def add64 (a b : Nat) : Nat := (a + b) % M64

/-- Wrapping `u64` subtraction (for `a b < 2 ^ 64`). -/
def sub64 (a b : Nat) : Nat := (M64 + a - b) % M64

/-- Truncating `u64` left shift. -/
def shl64 (a s : Nat) : Nat := (a <<< s) % M64

/-- `u64` bitwise complement (for `a < 2 ^ 64`). -/
def not64 (a : Nat) : Nat := a ^^^ (M64 - 1)

/-- Fuelled helper for `u64::count_ones`. -/
def popcountAux : Nat → Nat → Nat
  | 0, _ => 0
  | f + 1, n => if n = 0 then 0 else n % 2 + popcountAux f (n / 2)

/-- `u64::count_ones`. -/
def popcount (n : Nat) : Nat := popcountAux 64 n

/-- Fuelled helper for `u64::trailing_zeros`. -/
def tzAux : Nat → Nat → Nat
  | 0, _ => 0
  | f + 1, n => if n % 2 = 1 then 0 else 1 + tzAux f (n / 2)

/-- `u64::trailing_zeros` (returns 64 on input 0). -/
def trailing_zeros (n : Nat) : Nat := tzAux 64 n

/-! ## Score (from `src/score.rs`)

The Rust enum has explicit discriminants `Unknown = 0, Loss = 1,
DrawOrLoss = 2, Draw = 3, DrawOrWin = 4, Win = 5`; the derived
`PartialOrd` compares discriminant values, which `Score.val` models. -/

inductive Score where
  | Unknown
  | Loss
  | DrawOrLoss
  | Draw
  | DrawOrWin
  | Win
deriving DecidableEq, Repr

namespace Score

/-- The Rust discriminant of a `Score`. -/
def val : Score → Nat
  | .Unknown => 0
  | .Loss => 1
  | .DrawOrLoss => 2
  | .Draw => 3
  | .DrawOrWin => 4
  | .Win => 5

def is_exact (s : Score) : Bool :=
  s = Score.Loss || s = Score.Draw || s = Score.Win

/-- Returns the score from the other player's perspective. -/
def flip : Score → Score
  | .Unknown => .Unknown
  | .Draw => .Draw
  | .Loss => .Win
  | .Win => .Loss
  | .DrawOrLoss => .DrawOrWin
  | .DrawOrWin => .DrawOrLoss

/-- `Score::from_u64_fast`. -/
def from_u64_fast (number : Nat) : Score :=
  match number with
  | 1 => .Loss
  | 2 => .DrawOrLoss
  | 3 => .Draw
  | 4 => .DrawOrWin
  | 5 => .Win
  | _ => .Unknown

def from_char (ch : Char) : Score :=
  match ch with
  | '-' => .Loss
  | '<' => .DrawOrLoss
  | '=' => .Draw
  | '>' => .DrawOrWin
  | '+' => .Win
  | _ => .Unknown

/-- `Score::from_string` on a string modelled as a character list. -/
def from_string (score_str : List Char) : Score :=
  if score_str.length = 1 then
    from_char (score_str.headD ' ')
  else
    match score_str.map Char.toLower with
    | ['w', 'i', 'n'] => .Win
    | ['l', 'o', 's', 's'] => .Loss
    | ['d', 'r', 'a', 'w'] => .Draw
    | _ => .Unknown

def to_char : Score → Char
  | .Loss => '-'
  | .DrawOrLoss => '<'
  | .Draw => '='
  | .DrawOrWin => '>'
  | .Win => '+'
  | .Unknown => '?'

end Score

/-! ## Bitboard primitives (from `src/bitboard.rs`)

A `Bitboard` is a plain `u64`, modelled as `Nat`. -/

namespace Bitboard

def has_won (board : Nat) : Bool :=
  let vertical := board &&& (board >>> 1)
  let horizontal := board &&& (board >>> BIT_HEIGHT)
  let slash := board &&& (board >>> (BIT_HEIGHT + 1))
  let backslash := board &&& (board >>> (BIT_HEIGHT - 1))
  let result :=
    (vertical &&& (vertical >>> 2)) |||
    (horizontal &&& (horizontal >>> (2 * BIT_HEIGHT))) |||
    (slash &&& (slash >>> (2 * (BIT_HEIGHT + 1)))) |||
    (backslash &&& (backslash >>> (2 * (BIT_HEIGHT - 1))))
  result != 0

def is_legal (board : Nat) : Bool := (GUTTER_ROW &&& board) == 0

/-- One direction of `get_threat_cells` (`fn threat_line`). -/
def threat_line (board : Nat) (shift_amount : Nat) : Nat :=
  let right_helper := (board >>> shift_amount) &&& (board >>> (2 * shift_amount))
  let right_triple := right_helper &&& (board >>> (3 * shift_amount))
  let right_hole := right_helper &&& shl64 board shift_amount
  let left_helper := shl64 board shift_amount &&& shl64 board (2 * shift_amount)
  let left_triple := left_helper &&& shl64 board (3 * shift_amount)
  let left_hole := left_helper &&& (board >>> shift_amount)
  right_triple ||| right_hole ||| left_triple ||| left_hole

/-- Cells where this player would complete a four-in-a-row. -/
def get_threat_cells (board : Nat) : Nat :=
  let vertical := shl64 board 1 &&& shl64 board 2 &&& shl64 board 3
  let horizontal := threat_line board BIT_HEIGHT
  let diagonal1 := threat_line board (BIT_HEIGHT + 1)
  let diagonal2 := threat_line board (BIT_HEIGHT - 1)
  (vertical ||| horizontal ||| diagonal1 ||| diagonal2) &&& FULL_BOARD

/-- Keep only the lowest set bit of each column (gutter bit if none). -/
def keep_lowest_or_gutter (board : Nat) : Nat :=
  let helper := board ||| GUTTER_ROW
  helper &&& add64 (not64 helper) BOTTOM_ROW

/-- Horizontal mirror, column by column (the `flip` loop unrolled by fuel). -/
def flipAux : Nat → Nat → Nat → Nat
  | 0, _, mirror => mirror
  | f + 1, pos, mirror => flipAux f (pos >>> BIT_HEIGHT) ((mirror <<< BIT_HEIGHT) ||| (pos &&& FIRST_COLUMN))

def flip (board : Nat) : Nat := flipAux BOARD_WIDTH board 0

/-- One iteration of the `get_silhouette` loop. -/
def silStep (tmp : Nat) : Nat := tmp ||| ((tmp >>> 1) &&& FULL_BOARD)

def silAux : Nat → Nat → Nat
  | 0, tmp => tmp
  | f + 1, tmp => silAux f (silStep tmp)

/-- Finds the highest set bit of each column and saturates downwards
(the loop runs `BOARD_HEIGHT - 1` times). -/
def get_silhouette (board : Nat) : Nat := silAux (BOARD_HEIGHT - 1) board

end Bitboard

/-! ## Positions (from `src/position.rs`) -/

/-- The board state of a particular position: the discs of the player to
move (`current`) and of the opponent (`other`). -/
structure Position where
  current : Nat
  other : Nat
deriving DecidableEq, Repr

namespace Position

def empty : Position := ⟨0, 0⟩

def to_other_perspective (p : Position) : Position := ⟨p.other, p.current⟩

def both (p : Position) : Nat := p.current ||| p.other

def get_height_bit (p : Position) (column : Nat) : Nat :=
  let column_mask := FIRST_COLUMN <<< (BIT_HEIGHT * column)
  let b := add64 p.both BOTTOM_ROW
  b &&& column_mask

def get_height (p : Position) (column : Nat) : Nat :=
  trailing_zeros (add64 (p.both >>> (BIT_HEIGHT * column)) 1)

def get_height_cells (p : Position) : Nat := add64 p.both BOTTOM_ROW

/-- The bitboard of `current` after dropping a disc in `column`. -/
def drop (p : Position) (column : Nat) : Nat :=
  p.current ||| p.get_height_bit column

def position_after_drop (p : Position) (column : Nat) : Option Position :=
  let new_board := p.drop column
  if ¬ Bitboard.is_legal new_board then none
  else some ⟨p.other, new_board⟩

def has_anyone_won (p : Position) : Bool :=
  Bitboard.has_won p.current || Bitboard.has_won p.other

def get_ply (p : Position) : Nat := popcount (p.current ||| p.other)

def get_threats (p : Position) : Nat :=
  let threat_cells := Bitboard.get_threat_cells p.current
  let empty_cells := FULL_BOARD ^^^ p.both
  threat_cells &&& empty_cells

def get_immediate_wins (p : Position) : Nat :=
  Bitboard.get_threat_cells p.current &&& p.get_height_cells

def count_threats (p : Position) : Nat := popcount p.get_threats

/-- The canonical 64-bit position code `BOTTOM_ROW + current + current + other`. -/
def to_position_code (p : Position) : Nat :=
  add64 (add64 (add64 BOTTOM_ROW p.current) p.current) p.other

def from_position_code (code : Nat) : Option Position :=
  let silhouette := Bitboard.get_silhouette code
  if ¬ (silhouette &&& BOTTOM_ROW = BOTTOM_ROW) then none
  else
    let b := (silhouette >>> 1) &&& FULL_BOARD
    some ⟨code &&& b, not64 code &&& b⟩

def get_silhouette (p : Position) : Nat :=
  Bitboard.get_silhouette ((p.to_position_code >>> 1) &&& FULL_BOARD)

def flip (p : Position) : Position := ⟨Bitboard.flip p.current, Bitboard.flip p.other⟩

def normalize (p : Position) : Position :=
  let flipped := p.flip
  if p.to_position_code < flipped.to_position_code then flipped else p

def to_normalized_position_code (p : Position) : Nat × Bool :=
  let flipped := p.flip
  let code1 := p.to_position_code
  let code2 := flipped.to_position_code
  if code1 < code2 then (code1, code1 == code2) else (code2, code1 == code2)

def get_legal_moves (p : Position) : Nat := p.get_height_cells &&& FULL_BOARD

/-- All legal moves whose destination is not directly below an enemy threat. -/
def get_unblocked_moves (p : Position) : Nat :=
  let legal_moves := p.get_height_cells &&& FULL_BOARD
  let enemy_threats := p.to_other_perspective.get_threats
  not64 (enemy_threats >>> 1) &&& legal_moves

/-- `Position::autofinish_score`: what happens if the opponent always
imitates the current player's column. -/
def autofinish_score (p : Position) (playable_moves : Nat) : Score :=
  let current := p.current
  let other := p.other
  let empty := not64 p.both
  if playable_moves &&& EVEN_ROWS ≠ 0 then Score.Unknown
  else
    let playable_gutter := add64 FULL_BOARD playable_moves &&& GUTTER_ROW
    let unplayable_gutter := playable_gutter ^^^ GUTTER_ROW
    let playable_columns := sub64 (playable_gutter ||| (unplayable_gutter >>> BOARD_HEIGHT)) BOTTOM_ROW
    let playable_area := playable_columns &&& empty
    let even_enemy_threats := Bitboard.get_threat_cells other &&& EVEN_ROWS &&& playable_area
    let under_threats := sub64 (Bitboard.keep_lowest_or_gutter even_enemy_threats) BOTTOM_ROW
    let immediate_cells := p.get_height_cells &&& FULL_BOARD
    let obtainable_cells := immediate_cells ||| (playable_area &&& under_threats &&& ODD_ROWS)
    let current2 := current ||| obtainable_cells
    let other2 := other ||| (shl64 obtainable_cells 1 &&& FULL_BOARD)
    if Bitboard.has_won current2 then Score.Unknown
    else if Bitboard.has_won other2 then Score.Loss
    else Score.DrawOrLoss

end Position

/-! ## Move bitmaps (from `src/move_bitmap.rs`), on raw `u64` bitmaps -/

namespace MoveBitmap

def count_moves (m : Nat) : Nat := popcount m

def get_left_half (m : Nat) : Nat := m &&& LEFT_HALF

def has_move (m : Nat) (column : Nat) : Bool :=
  (m >>> (column * BIT_HEIGHT)) &&& FIRST_COLUMN != 0

end MoveBitmap

/-! ## Transposition table (from `src/trans_table.rs`) -/

/-- `closest_power_of_two` (log2 rounded upwards), fuelled. -/
def cp2Aux : Nat → Nat → Nat
  | 0, _ => 0
  | f + 1, n => if n = 0 then 0 else 1 + cp2Aux f (n / 2)

def closest_power_of_two (number : Nat) : Nat := cp2Aux 64 number

/-- Number of bits used to encode a score in a table entry. -/
def SCORE_BITS : Nat := 3

/-- A slot holds an `expensive` and a `recent` entry, each one `u64`. -/
structure TransTable where
  table_size : Nat
  slots : List (Nat × Nat)
  stored_count : Nat
  key_bits : Nat
  key_score_bits : Nat
  key_mask : Nat
  score_mask : Nat
  work_mask : Nat
deriving DecidableEq, Repr

namespace TransTable

def new (table_size : Nat) : TransTable :=
  let largest_possible_position : Nat := (1 <<< POSITION_BITS) - 1
  let key_size := closest_power_of_two (largest_possible_position / table_size)
  let key_score_size := key_size + SCORE_BITS
  let key_mask := (1 <<< key_size) - 1
  let score_mask := ((1 <<< key_score_size) - 1) ^^^ key_mask
  let work_mask := (M64 - 1) ^^^ score_mask ^^^ key_mask
  { table_size := table_size
    slots := List.replicate table_size (0, 0)
    stored_count := 0
    key_bits := key_size
    key_score_bits := key_score_size
    key_mask := key_mask
    score_mask := score_mask
    work_mask := work_mask }

/-- `TransTable::store` with the TwoBig1 replacement scheme.  The `work`
argument is a `u32` in Rust. -/
def store (t : TransTable) (position_code : Nat) (score : Score) (work : Nat) : TransTable :=
  let index := position_code % t.table_size
  let key := position_code / t.table_size
  let new_entry := key ||| shl64 score.val t.key_bits ||| shl64 work t.key_score_bits
  let slot := t.slots.getD index (0, 0)
  let expensive_entry := slot.1
  let recent_entry := slot.2
  if expensive_entry = 0 then
    { t with stored_count := t.stored_count + 1,
             slots := t.slots.set index (new_entry, recent_entry) }
  else if expensive_entry &&& t.key_mask = key then
    { t with slots := t.slots.set index (new_entry, recent_entry) }
  else if (expensive_entry >>> t.key_score_bits) % 2 ^ 32 ≤ work then
    { t with stored_count := if recent_entry = 0 then t.stored_count + 1 else t.stored_count,
             slots := t.slots.set index (new_entry, expensive_entry) }
  else
    { t with stored_count := if recent_entry = 0 then t.stored_count + 1 else t.stored_count,
             slots := t.slots.set index (expensive_entry, new_entry) }

def fetch (t : TransTable) (position_code : Nat) : Score :=
  let index := position_code % t.table_size
  let key := position_code / t.table_size
  let slot := t.slots.getD index (0, 0)
  let expensive_entry := slot.1
  let found_entry : Option Nat :=
    if expensive_entry &&& t.key_mask = key then some expensive_entry
    else
      let recent_entry := slot.2
      if recent_entry &&& t.key_mask = key then some recent_entry
      else none
  match found_entry with
  | some entry => Score.from_u64_fast ((entry &&& t.score_mask) >>> t.key_bits)
  | none => Score.Unknown

end TransTable

/-! ## Book entries and books (from `src/book.rs`) -/

/-- `u64::from_str_radix(s, 16)`: an optional leading `+` sign followed
by at least one hexadecimal digit; errors on any other character and on
overflow past `u64::MAX`. -/
def hexDigitsVal (cs : List Char) : Option Nat :=
  if cs = [] then none
  else
    let rec go : List Char → Nat → Option Nat
      | [], acc => some acc
      | c :: rest, acc =>
        if c.isDigit then go rest (acc * 16 + (c.toNat - '0'.toNat))
        else if 'a' ≤ c ∧ c ≤ 'f' then go rest (acc * 16 + (c.toNat - 'a'.toNat + 10))
        else if 'A' ≤ c ∧ c ≤ 'F' then go rest (acc * 16 + (c.toNat - 'A'.toNat + 10))
        else none
    match go cs 0 with
    | some v => if v < M64 then some v else none
    | none => none

/-- The sign handling of `u64::from_str_radix`: core strips one leading
`+` before reading digits (a lone `+` then fails for lack of digits); a
leading `-` is only stripped for signed target types, so for `u64` it
falls through to the digit loop and fails as a non-digit. -/
def from_str_radix_16 (cs : List Char) : Option Nat :=
  match cs with
  | '+' :: rest => hexDigitsVal rest
  | _ => hexDigitsVal cs

/-- A book entry packs a normalized position code and its score in one `u64`. -/
def BookEntry.SCORE_SHIFT : Nat := 64 - SCORE_BITS

def BookEntry.POSITION_MASK : Nat := (1 <<< BookEntry.SCORE_SHIFT) - 1

/-- `BookEntry::new`: normalizes the position and packs the score in the
top three bits. -/
def BookEntry.new (position : Position) (score : Score) : Nat :=
  let code := position.normalize.to_position_code
  code ||| shl64 score.val BookEntry.SCORE_SHIFT

def BookEntry.get_position_code (e : Nat) : Nat := e &&& BookEntry.POSITION_MASK

def BookEntry.get_score (e : Nat) : Score := Score.from_u64_fast (e >>> BookEntry.SCORE_SHIFT)

/-- `BookEntry::from_hex_string` on a line modelled as a character list.
`line.len()` counts bytes in Rust; for lines of ASCII characters (the
only ones our theorems quantify over) this equals the character count,
and byte slicing at 16 equals `take`/`drop` of 16 characters. -/
def BookEntry.from_hex_string (line : List Char) : Option Nat :=
  let HEX_LENGTH : Nat := 16
  if line.length ≠ HEX_LENGTH + 1 then none
  else
    match from_str_radix_16 (line.take HEX_LENGTH) with
    | none => none
    | some position_code =>
      match Position.from_position_code position_code with
      | none => none
      | some position =>
        let score := Score.from_string (line.drop HEX_LENGTH)
        if score = Score.Unknown then none
        else some (BookEntry.new position score)

/-- An opening book: entries sorted by position code, plus the bitwise OR
of all stored plies. -/
structure Book where
  entries : List Nat
  ply_mask : Nat
deriving DecidableEq, Repr

namespace Book

def contains_ply (b : Book) (ply : Nat) : Bool := b.ply_mask &&& ply != 0

/-- Fuelled binary search over the sorted entry list, comparing by
position code (this is `Vec::binary_search` with the `Ord` of `BookEntry`). -/
def bsearchAux (entries : List Nat) (target : Nat) : Nat → Nat → Nat → Option Nat
  | 0, _, _ => none
  | f + 1, lo, hi =>
    if hi ≤ lo then none
    else
      let mid := (lo + hi) / 2
      let e := BookEntry.get_position_code (entries.getD mid 0)
      if e = target then some mid
      else if e < target then bsearchAux entries target f (mid + 1) hi
      else bsearchAux entries target f lo mid

/-- `Book::get`: binary-search the normalized code, return the score. -/
def get (b : Book) (position : Position) : Score :=
  let target := BookEntry.get_position_code (BookEntry.new position Score.Unknown)
  match bsearchAux b.entries target (b.entries.length + 1) 0 b.entries.length with
  | some index => BookEntry.get_score (b.entries.getD index 0)
  | none => Score.Unknown

end Book

/-! ## Search engine (from `src/engine.rs` and `src/heuristic.rs`) -/

/-- The fixed position-value table of `FixedHeuristic` (rows listed from
the top of the board down, as in the source). -/
def heuristicTable : List (List Nat) :=
  [[3, 5, 7, 11, 7, 5, 3],
   [4, 6, 10, 12, 10, 6, 4],
   [5, 10, 11, 12, 11, 10, 5],
   [4, 8, 10, 11, 10, 8, 4],
   [3, 6, 8, 10, 8, 6, 3],
   [2, 3, 5, 7, 5, 3, 2]]

/-- `FixedHeuristic::get_value`: `TABLE[BOARD_HEIGHT - y - 1][x]`. -/
def FixedHeuristic.get_value (x y : Nat) : Nat :=
  (heuristicTable.getD (BOARD_HEIGHT - y - 1) []).getD x 0

/-- The engine state: the fields of `struct Engine` (the stateless
`FixedHeuristic` carries no data). -/
structure Engine where
  position : Position
  trans_table : TransTable
  work_count : Nat
  ply : Nat
  book : Option Book
deriving DecidableEq, Repr

/-- A candidate move with its ordering priority. -/
structure Move where
  new_position : Position
  priority : Nat
deriving DecidableEq, Repr

inductive QuickEvaluation where
  | score (s : Score)
  | moves (m : Nat)
deriving DecidableEq, Repr

structure AlphaBeta where
  alpha : Score
  beta : Score
deriving DecidableEq, Repr

namespace AlphaBeta

def new : AlphaBeta := ⟨Score.Loss, Score.Win⟩

def flip (ab : AlphaBeta) : AlphaBeta := ⟨ab.beta.flip, ab.alpha.flip⟩

def has_cutoff (ab : AlphaBeta) : Bool := ab.beta.val ≤ ab.alpha.val

def narrow_alpha (ab : AlphaBeta) (score : Score) : AlphaBeta :=
  if score = Score.Win then { ab with alpha := Score.Win }
  else if score = Score.Draw ∨ score = Score.DrawOrWin then { ab with alpha := Score.Draw }
  else ab

end AlphaBeta

namespace Engine

/-- `Engine::set_position`. -/
def set_position (e : Engine) (position : Position) : Engine :=
  { e with position := position, ply := position.get_ply }

/-- `Engine::quick_evaluate` (a pure function of the position and window). -/
def quick_evaluate (position : Position) (ab : AlphaBeta) : QuickEvaluation :=
  let unblocked_moves := position.get_unblocked_moves
  if unblocked_moves = 0 then .score Score.Loss
  else
    let immediate_enemy_threats := position.to_other_perspective.get_immediate_wins
    let forced_move_count := MoveBitmap.count_moves immediate_enemy_threats
    if 1 < forced_move_count then .score Score.Loss
    else if forced_move_count = 1 then
      if immediate_enemy_threats &&& unblocked_moves = 0 then .score Score.Loss
      else .moves immediate_enemy_threats
    else
      let auto_score := position.autofinish_score unblocked_moves
      if auto_score ≠ Score.Unknown ∧ auto_score.val ≤ ab.alpha.val then .score auto_score
      else .moves unblocked_moves

/-- `Engine::create_move`: the child position and its move-ordering
priority (threat count, late-game height bonus, static table). -/
def create_move (e : Engine) (x : Nat) : Move :=
  let new_position : Position := ⟨e.position.other, e.position.drop x⟩
  let y := e.position.get_height x
  let threats := new_position.to_other_perspective.count_threats
  { new_position := new_position
    priority := threats * 1000000 + (if 19 < e.ply then 1000 * y else 0) + FixedHeuristic.get_value x y }

/-- Insert a move into a descending-priority list, after any entries of
equal priority: the stable in-place insertion sort of the source, one
element at a time. -/
def insertDesc (m : Move) : List Move → List Move
  | [] => [m]
  | a :: rest => if a.priority < m.priority then m :: a :: rest else a :: insertDesc m rest

def insertion_sort (moves : List Move) : List Move :=
  moves.foldl (fun acc m => insertDesc m acc) []

/-- The moves of a bitmap materialized in column order (`MoveBitmap::init_array`). -/
def movesOf (e : Engine) (move_bitmap : Nat) : List Move :=
  ((List.range BOARD_WIDTH).filter (fun x => MoveBitmap.has_move move_bitmap x)).map (create_move e)

/-- The one-ply look-ahead cutoff loop of `negamax`: for each child in the
bitmap, quick-evaluate it with the flipped window and return the flipped
score as soon as one at least reaches `beta`. -/
def lookahead (position : Position) (ab : AlphaBeta) (move_bitmap : Nat) : List Nat → Option Score
  | [] => none
  | x :: rest =>
    if MoveBitmap.has_move move_bitmap x then
      match quick_evaluate ((position.position_after_drop x).getD Position.empty) ab.flip with
      | .score their_score =>
        let our_score := their_score.flip
        if ab.beta.val ≤ our_score.val then some our_score
        else lookahead position ab move_bitmap rest
      | .moves _ => lookahead position ab move_bitmap rest
    else lookahead position ab move_bitmap rest

/-- The book probe of `negamax`: `Some score` when the book applies. -/
def bookProbe (e : Engine) : Option Score :=
  match e.book with
  | none => none
  | some book =>
    if book.contains_ply e.ply then
      let book_score := book.get e.position
      if book_score ≠ Score.Unknown then some book_score else none
    else none

/-- The child-expansion loop of `negamax`.  `F` is the recursive call at
the next depth.  Returns the final engine state, window, best score and
remaining unknown count; stops early on an alpha-beta cutoff. -/
def childLoop (F : Engine → AlphaBeta → Score × Engine) :
    List Move → Engine → AlphaBeta → Score → Nat → Engine × AlphaBeta × Score × Nat
  | [], e, ab, best_score, unknown_count => (e, ab, best_score, unknown_count)
  | m :: rest, e, ab, best_score, unknown_count =>
    let e1 := { e with position := m.new_position, ply := e.ply + 1 }
    let r := F e1 ab.flip
    let score := r.1.flip
    let e2 := { r.2 with ply := r.2.ply - 1 }
    let unknown_count := if score ≠ Score.Unknown then unknown_count - 1 else unknown_count
    if best_score.val < score.val then
      let ab := ab.narrow_alpha score
      if ab.has_cutoff then (e2, ab, score, unknown_count)
      else childLoop F rest e2 ab score unknown_count
    else childLoop F rest e2 ab best_score unknown_count

/-- `Engine::negamax`, structurally recursive on `max_depth` (the source
checks `ply == W*H - 1` first and `max_depth == 0` second; every
recursive call passes `max_depth - 1`). -/
def negamax (max_depth : Nat) (e : Engine) (ab : AlphaBeta) : Score × Engine :=
  if e.ply = BOARD_WIDTH * BOARD_HEIGHT - 1 then (Score.Draw, e)
  else
    match max_depth with
    | 0 => (Score.Unknown, e)
    | d + 1 =>
      let e := { e with work_count := e.work_count + 1 }
      match quick_evaluate e.position ab with
      | .score score => (score, e)
      | .moves mb =>
        if MoveBitmap.count_moves mb = 1 then
          let old_position := e.position
          let e1 := { e with position := ⟨e.position.other, e.position.current ||| mb⟩,
                             ply := e.ply + 1 }
          let r := negamax d e1 ab.flip
          (r.1.flip, { r.2 with ply := r.2.ply - 1, position := old_position })
        else
          let nc := e.position.to_normalized_position_code
          let position_code := nc.1
          let move_bitmap := if nc.2 then MoveBitmap.get_left_half mb else mb
          match lookahead e.position ab move_bitmap (List.range BOARD_WIDTH) with
          | some score => (score, e)
          | none =>
            match bookProbe e with
            | some book_score => (book_score, e)
            | none =>
              let trans_score := e.trans_table.fetch position_code
              if trans_score.is_exact then (trans_score, e)
              else
                let ab1 := if trans_score = Score.DrawOrWin then { ab with alpha := Score.Draw }
                           else if trans_score = Score.DrawOrLoss then { ab with beta := Score.Draw }
                           else ab
                let best0 := if trans_score = Score.DrawOrWin then Score.Draw else Score.Loss
                if trans_score ≠ Score.Unknown ∧ ab1.has_cutoff then (trans_score, e)
                else
                  let possible_moves := insertion_sort (movesOf e move_bitmap)
                  let old_position := e.position
                  let original_interior_count := e.work_count
                  let r := childLoop (negamax d) possible_moves e ab1 best0 possible_moves.length
                  let e2 := { r.1 with position := old_position }
                  let work := e2.work_count - original_interior_count
                  let best1 := r.2.2.1
                  let unknown_count := r.2.2.2
                  let best2 :=
                    if 0 < unknown_count then
                      if best1 = Score.Draw then Score.DrawOrWin
                      else if best1.val < Score.Draw.val then Score.Unknown
                      else best1
                    else best1
                  let best3 :=
                    if trans_score = Score.DrawOrLoss ∧ Score.Draw.val ≤ best2.val then Score.Draw
                    else best2
                  (best3, { e2 with trans_table := e2.trans_table.store position_code best3 (work % 2 ^ 32) })

/-- `Engine::solve`: pre-search shortcuts, then `negamax` over the full depth. -/
def solve (e : Engine) : Score × Engine :=
  if Bitboard.has_won e.position.current then (Score.Win, e)
  else if Bitboard.has_won e.position.other then (Score.Loss, e)
  else if e.ply = BOARD_WIDTH * BOARD_HEIGHT then (Score.Draw, e)
  else if (List.range BOARD_WIDTH).any
      (fun x => Bitboard.is_legal (e.position.drop x) && Bitboard.has_won (e.position.drop x)) then
    (Score.Win, e)
  else negamax (BOARD_WIDTH * BOARD_HEIGHT) e AlphaBeta.new

end Engine

/-! ## Bit-level toolkit

`colOf n x` extracts column `x` of a bitboard as a 7-bit value.  The
lemmas below let boards be reasoned about one column at a time. -/

def colOf (n x : Nat) : Nat := (n >>> (7 * x)) &&& 127

theorem colOf_lt (n x : Nat) : colOf n x < 128 := by
  have h := Nat.and_le_right (n := n >>> (7 * x)) (m := 127)
  simp only [colOf]; omega

theorem colOf_eq_div_mod (n x : Nat) : colOf n x = n / 128 ^ x % 128 := by
  have h127 : (127 : Nat) = 2 ^ 7 - 1 := rfl
  rw [colOf, h127, Nat.and_pow_two_sub_one_eq_mod, Nat.shiftRight_eq_div_pow,
    Nat.pow_mul]

theorem colOf_zero (n : Nat) : colOf n 0 = n % 128 := by
  rw [colOf_eq_div_mod]; simp

theorem colOf_succ (n x : Nat) : colOf n (x + 1) = colOf (n / 128) x := by
  rw [colOf_eq_div_mod, colOf_eq_div_mod, Nat.div_div_eq_div_mul, Nat.pow_succ,
    Nat.mul_comm (128 ^ x) 128, Nat.mul_comm 128 (128 ^ x)]

theorem testBit_colOf {y : Nat} (n x : Nat) (hy : y < 7) :
    (colOf n x).testBit y = n.testBit (7 * x + y) := by
  have h127 : (127 : Nat) = 2 ^ 7 - 1 := rfl
  rw [colOf, h127, Nat.testBit_land, Nat.testBit_shiftRight, Nat.testBit_two_pow_sub_one]
  simp [hy]

theorem lt128_two_pow {m i : Nat} (hm : m < 128) (hi : 7 ≤ i) : m < 2 ^ i := by
  calc m < 128 := hm
  _ = 2 ^ 7 := by norm_num
  _ ≤ 2 ^ i := Nat.pow_le_pow_right (by norm_num) hi

theorem colOf_land (a b x : Nat) : colOf (a &&& b) x = colOf a x &&& colOf b x := by
  apply Nat.eq_of_testBit_eq
  intro i
  rcases Nat.lt_or_ge i 7 with hi | hi
  · simp [testBit_colOf _ _ hi, Nat.testBit_land]
  · rw [Nat.testBit_lt_two_pow (lt128_two_pow (colOf_lt _ _) hi),
      Nat.testBit_lt_two_pow (lt_of_le_of_lt Nat.and_le_left (lt128_two_pow (colOf_lt a x) hi))]

theorem colOf_lor (a b x : Nat) : colOf (a ||| b) x = colOf a x ||| colOf b x := by
  apply Nat.eq_of_testBit_eq
  intro i
  rcases Nat.lt_or_ge i 7 with hi | hi
  · simp [testBit_colOf _ _ hi, Nat.testBit_or]
  · rw [Nat.testBit_lt_two_pow (lt128_two_pow (colOf_lt _ _) hi),
      Nat.testBit_lt_two_pow
        (lt128_two_pow (Nat.or_lt_two_pow (n := 7) (colOf_lt a x) (colOf_lt b x)) hi)]

theorem colOf_xor (a b x : Nat) : colOf (a ^^^ b) x = colOf a x ^^^ colOf b x := by
  apply Nat.eq_of_testBit_eq
  intro i
  rcases Nat.lt_or_ge i 7 with hi | hi
  · simp [testBit_colOf _ _ hi, Nat.testBit_xor]
  · rw [Nat.testBit_lt_two_pow (lt128_two_pow (colOf_lt _ _) hi),
      Nat.testBit_lt_two_pow
        (lt128_two_pow (Nat.xor_lt_two_pow (n := 7) (colOf_lt a x) (colOf_lt b x)) hi)]

/-- Columns at index 7 and beyond of a 49-bit value are zero. -/
theorem colOf_high (n x : Nat) (hn : n ≤ ALL_BITS) (hx : 7 ≤ x) : colOf n x = 0 := by
  rw [colOf_eq_div_mod]
  have : n < 128 ^ x := by
    calc n < 2 ^ 49 := by
          have : ALL_BITS = 2 ^ 49 - 1 := by decide
          omega
    _ = 128 ^ 7 := by norm_num
    _ ≤ 128 ^ x := Nat.pow_le_pow_right (by norm_num) hx
  simp [Nat.div_eq_of_lt this]

/-- Column-wise addition with no carries between columns. -/
theorem colOf_add (a b : Nat) (h : ∀ x, colOf a x + colOf b x < 128) :
    ∀ x, colOf (a + b) x = colOf a x + colOf b x := by
  intro x
  induction x generalizing a b with
  | zero =>
    have h0 := h 0
    rw [colOf_zero, colOf_zero] at h0
    rw [colOf_zero, colOf_zero, colOf_zero]
    omega
  | succ x ih =>
    have h0 := h 0
    rw [colOf_zero, colOf_zero] at h0
    have hdiv : (a + b) / 128 = a / 128 + b / 128 := by omega
    rw [colOf_succ, hdiv, ih (a / 128) (b / 128) ?_, colOf_succ, colOf_succ]
    intro y
    have := h (y + 1)
    rwa [colOf_succ, colOf_succ] at this

/-- Two 49-bit values with equal columns are equal. -/
theorem eq_of_colOf_eq_aux : ∀ (k a b : Nat), a < 128 ^ k → b < 128 ^ k →
    (∀ x < k, colOf a x = colOf b x) → a = b := by
  intro k
  induction k with
  | zero => intro a b ha hb _; simp at ha hb; omega
  | succ k ih =>
    intro a b ha hb h
    have h0 := h 0 (Nat.succ_pos k)
    rw [colOf_zero, colOf_zero] at h0
    have ha' : a / 128 < 128 ^ k := by
      rw [Nat.div_lt_iff_lt_mul (by norm_num)]
      calc a < 128 ^ (k + 1) := ha
      _ = 128 ^ k * 128 := by ring
    have hb' : b / 128 < 128 ^ k := by
      rw [Nat.div_lt_iff_lt_mul (by norm_num)]
      calc b < 128 ^ (k + 1) := hb
      _ = 128 ^ k * 128 := by ring
    have hrec : a / 128 = b / 128 := by
      apply ih _ _ ha' hb'
      intro x hx
      have := h (x + 1) (by omega)
      rwa [colOf_succ, colOf_succ] at this
    omega

theorem eq_of_colOf_eq {a b : Nat} (ha : a ≤ ALL_BITS) (hb : b ≤ ALL_BITS)
    (h : ∀ x < 7, colOf a x = colOf b x) : a = b := by
  have hA : ALL_BITS < 128 ^ 7 := by decide
  exact eq_of_colOf_eq_aux 7 a b (by omega) (by omega) h

/-- If column sums never carry and the summands are 49-bit, the sum is 49-bit. -/
theorem add_le_all (a b : Nat) (ha : a ≤ ALL_BITS) (hb : b ≤ ALL_BITS)
    (h : ∀ x, colOf a x + colOf b x < 128) : a + b ≤ ALL_BITS := by
  have h7 := colOf_add a b h 7
  rw [colOf_high a 7 ha (le_refl 7), colOf_high b 7 hb (le_refl 7)] at h7
  rw [colOf_eq_div_mod] at h7
  have h128 : (128 : Nat) ^ 7 = 562949953421312 := by norm_num
  have hA : ALL_BITS = 562949953421311 := by decide
  rw [h128] at h7
  omega

/-! ### Popcount lemmas -/

theorem popcountAux_zero (f : Nat) : popcountAux f 0 = 0 := by
  cases f <;> simp [popcountAux]

theorem popcountAux_succ (f m : Nat) : popcountAux (f + 1) m = m % 2 + popcountAux f (m / 2) := by
  by_cases h : m = 0
  · simp [h, popcountAux, popcountAux_zero]
  · rw [popcountAux, if_neg h]

theorem popcountAux_step (f : Nat) {n : Nat} (hn : n < 2 ^ f) :
    popcountAux (f + 1) n = popcountAux f n := by
  induction f generalizing n with
  | zero =>
    have : n = 0 := by simpa using hn
    simp [this, popcountAux]
  | succ f ih =>
    rw [popcountAux_succ (f + 1) n, popcountAux_succ f n]
    have h2 : n / 2 < 2 ^ f := by
      have := Nat.pow_succ 2 f
      omega
    rw [ih h2]

theorem popcountAux_of_lt {f g n : Nat} (hf : n < 2 ^ f) (hfg : f ≤ g) :
    popcountAux g n = popcountAux f n := by
  obtain ⟨j, rfl⟩ := Nat.le.dest hfg
  induction j with
  | zero => rfl
  | succ j ih =>
    have hn' : n < 2 ^ (f + j) := by
      calc n < 2 ^ f := hf
      _ ≤ 2 ^ (f + j) := Nat.pow_le_pow_right (by norm_num) (by omega)
    rw [show f + (j + 1) = (f + j) + 1 by omega, popcountAux_step (f + j) hn', ih (by omega)]

/-- Splitting a popcount at bit `f`. -/
theorem popcountAux_split (f g n : Nat) :
    popcountAux (f + g) n = popcountAux f (n % 2 ^ f) + popcountAux g (n / 2 ^ f) := by
  induction f generalizing n with
  | zero => simp [popcountAux]
  | succ f ih =>
    rw [show f + 1 + g = (f + g) + 1 by omega, popcountAux_succ, ih (n / 2),
      popcountAux_succ]
    have e1 : n % 2 ^ (f + 1) % 2 = n % 2 := by
      rw [Nat.mod_mod_of_dvd _ (Dvd.intro_left (2 ^ f) (by rw [Nat.pow_succ]))]
    have e2 : n % 2 ^ (f + 1) / 2 = n / 2 % 2 ^ f := by
      rw [show (2:Nat) ^ (f + 1) = 2 * 2 ^ f by rw [Nat.pow_succ, Nat.mul_comm],
        Nat.mod_mul_right_div_self]
    have e3 : n / 2 ^ (f + 1) = n / 2 / 2 ^ f := by
      rw [Nat.div_div_eq_div_mul,
        show (2:Nat) * 2 ^ f = 2 ^ (f + 1) by rw [Nat.pow_succ, Nat.mul_comm]]
    rw [e1, e2, e3]
    omega

theorem popcount_zero : popcount 0 = 0 := popcountAux_zero 64

theorem popcount_split128 {n : Nat} (hn : n < 2 ^ 64) :
    popcount n = popcount (n % 128) + popcount (n / 128) := by
  have h1 := popcountAux_split 7 57 n
  norm_num at h1
  have hm : n % 128 < 2 ^ 7 := by
    have := Nat.mod_lt n (y := 128) (by norm_num)
    norm_num
    omega
  have hd : n / 128 < 2 ^ 57 := by
    norm_num
    omega
  have e1 : popcount (n % 128) = popcountAux 7 (n % 128) :=
    popcountAux_of_lt hm (by norm_num)
  have e2 : popcount (n / 128) = popcountAux 57 (n / 128) :=
    popcountAux_of_lt hd (by norm_num)
  rw [e1, e2]
  exact h1

/-- The popcount of a 49-bit board is the sum of its column popcounts. -/
theorem popcount_cols (n : Nat) (hn : n ≤ ALL_BITS) :
    popcount n = popcount (colOf n 0) + popcount (colOf n 1) + popcount (colOf n 2) +
      popcount (colOf n 3) + popcount (colOf n 4) + popcount (colOf n 5) +
      popcount (colOf n 6) := by
  have hA : ALL_BITS = 2 ^ 49 - 1 := by decide
  have hb : n < 2 ^ 64 := by
    have : (2 : Nat) ^ 49 - 1 < 2 ^ 64 := by norm_num
    omega
  have hdle : ∀ m : Nat, m < 2 ^ 64 → m / 128 < 2 ^ 64 := fun m hm => by omega
  have s0 := popcount_split128 hb
  have s1 := popcount_split128 (hdle n hb)
  have s2 := popcount_split128 (hdle _ (hdle n hb))
  have s3 := popcount_split128 (hdle _ (hdle _ (hdle n hb)))
  have s4 := popcount_split128 (hdle _ (hdle _ (hdle _ (hdle n hb))))
  have s5 := popcount_split128 (hdle _ (hdle _ (hdle _ (hdle _ (hdle n hb)))))
  have s6 := popcount_split128 (hdle _ (hdle _ (hdle _ (hdle _ (hdle _ (hdle n hb))))))
  have z : n / 128 / 128 / 128 / 128 / 128 / 128 / 128 = 0 := by
    have : n < 562949953421312 := by omega
    omega
  have c0 : colOf n 0 = n % 128 := colOf_zero n
  have c1 : colOf n 1 = n / 128 % 128 := by
    rw [colOf_succ, colOf_zero]
  have c2 : colOf n 2 = n / 128 / 128 % 128 := by
    rw [colOf_succ, colOf_succ, colOf_zero]
  have c3 : colOf n 3 = n / 128 / 128 / 128 % 128 := by
    rw [colOf_succ, colOf_succ, colOf_succ, colOf_zero]
  have c4 : colOf n 4 = n / 128 / 128 / 128 / 128 % 128 := by
    rw [colOf_succ, colOf_succ, colOf_succ, colOf_succ, colOf_zero]
  have c5 : colOf n 5 = n / 128 / 128 / 128 / 128 / 128 % 128 := by
    rw [colOf_succ, colOf_succ, colOf_succ, colOf_succ, colOf_succ, colOf_zero]
  have c6 : colOf n 6 = n / 128 / 128 / 128 / 128 / 128 / 128 % 128 := by
    rw [colOf_succ, colOf_succ, colOf_succ, colOf_succ, colOf_succ, colOf_succ, colOf_zero]
  rw [c0, c1, c2, c3, c4, c5, c6, s0, s1, s2, s3, s4, s5, s6, z, popcount_zero]
  omega

theorem popcount_two_pow_sub_one {h : Nat} (hh : h ≤ 6) : popcount (2 ^ h - 1) = h := by
  interval_cases h <;> decide

/-! ### Disjoint bitwise-or is addition -/

theorem lor_div_two (a b : Nat) : (a ||| b) / 2 = a / 2 ||| b / 2 := by
  apply Nat.eq_of_testBit_eq
  intro i
  simp [Nat.testBit_div_two, Nat.testBit_or]

theorem land_div_two (a b : Nat) : (a &&& b) / 2 = a / 2 &&& b / 2 := by
  apply Nat.eq_of_testBit_eq
  intro i
  simp [Nat.testBit_div_two, Nat.testBit_land]

theorem lor_mod_two (a b : Nat) : (a ||| b) % 2 = a % 2 ||| b % 2 := by
  apply Nat.eq_of_testBit_eq
  intro i
  have h2 : (2 : Nat) = 2 ^ 1 := by norm_num
  cases i with
  | zero =>
    rw [h2]
    simp [Nat.testBit_mod_two_pow, Nat.testBit_or]
  | succ i =>
    have hple : (2 : Nat) ≤ 2 ^ (i + 1) := by
      calc (2 : Nat) = 2 ^ 1 := by norm_num
      _ ≤ 2 ^ (i + 1) := Nat.pow_le_pow_right (by norm_num) (by omega)
    have l1 : (a ||| b) % 2 < 2 ^ (i + 1) := by
      have hm := Nat.mod_lt (a ||| b) (y := 2) (by norm_num)
      omega
    have l2 : a % 2 ||| b % 2 < 2 ^ (i + 1) := by
      have ha := Nat.mod_lt a (y := 2) (by norm_num)
      have hb := Nat.mod_lt b (y := 2) (by norm_num)
      have hor := Nat.or_lt_two_pow (n := 1) (x := a % 2) (y := b % 2) (by omega) (by omega)
      omega
    rw [Nat.testBit_lt_two_pow l1, Nat.testBit_lt_two_pow l2]

theorem land_mod_two (a b : Nat) : (a &&& b) % 2 = a % 2 &&& b % 2 := by
  apply Nat.eq_of_testBit_eq
  intro i
  have h2 : (2 : Nat) = 2 ^ 1 := by norm_num
  cases i with
  | zero =>
    rw [h2]
    simp [Nat.testBit_mod_two_pow, Nat.testBit_land]
  | succ i =>
    have hple : (2 : Nat) ≤ 2 ^ (i + 1) := by
      calc (2 : Nat) = 2 ^ 1 := by norm_num
      _ ≤ 2 ^ (i + 1) := Nat.pow_le_pow_right (by norm_num) (by omega)
    have l1 : (a &&& b) % 2 < 2 ^ (i + 1) := by
      have hm := Nat.mod_lt (a &&& b) (y := 2) (by norm_num)
      omega
    have l2 : a % 2 &&& b % 2 < 2 ^ (i + 1) := by
      have ha := Nat.mod_lt a (y := 2) (by norm_num)
      have hand : a % 2 &&& b % 2 ≤ a % 2 := Nat.and_le_left
      omega
    rw [Nat.testBit_lt_two_pow l1, Nat.testBit_lt_two_pow l2]

/-- For bitboards with disjoint bits, bitwise or is plain addition. -/
theorem lor_eq_add : ∀ a b : Nat, a &&& b = 0 → a ||| b = a + b := by
  intro a
  induction a using Nat.strong_induction_on with
  | _ a ih =>
    intro b h
    by_cases ha : a = 0
    · simp [ha]
    · have hd : a / 2 &&& b / 2 = 0 := by
        rw [← land_div_two, h]
      have ihd : a / 2 ||| b / 2 = a / 2 + b / 2 := ih (a / 2) (by omega) _ hd
      have hm : a % 2 &&& b % 2 = 0 := by
        rw [← land_mod_two, h]
      have hv : (a ||| b) = 2 * ((a ||| b) / 2) + (a ||| b) % 2 := by omega
      rw [hv, lor_div_two, lor_mod_two, ihd]
      have h2a : a % 2 < 2 := Nat.mod_lt _ (by norm_num)
      have h2b : b % 2 < 2 := Nat.mod_lt _ (by norm_num)
      have hmor : a % 2 ||| b % 2 = a % 2 + b % 2 := by
        interval_cases h' : (a % 2) <;> interval_cases h'' : (b % 2) <;> simp_all
      omega

/-! ### Trailing zeros -/

theorem tzAux_pow {h k f : Nat} (hf : h < f) : tzAux f (2 ^ h * (2 * k + 1)) = h := by
  induction h generalizing f with
  | zero =>
    obtain ⟨f', rfl⟩ : ∃ f', f = f' + 1 := ⟨f - 1, by omega⟩
    simp only [tzAux]
    rw [if_pos (by omega)]
  | succ h ih =>
    obtain ⟨f', rfl⟩ : ∃ f', f = f' + 1 := ⟨f - 1, by omega⟩
    have hev : (2 ^ (h + 1) * (2 * k + 1)) % 2 = 0 := by
      have : 2 ^ (h + 1) * (2 * k + 1) = 2 * (2 ^ h * (2 * k + 1)) := by ring
      omega
    have hdiv : 2 ^ (h + 1) * (2 * k + 1) / 2 = 2 ^ h * (2 * k + 1) := by
      have : 2 ^ (h + 1) * (2 * k + 1) = 2 * (2 ^ h * (2 * k + 1)) := by ring
      omega
    rw [tzAux, if_neg (by omega), hdiv, ih (by omega)]
    omega

/-! ## Legal positions

The `Position` invariants of the data model: the two boards are
disjoint 49-bit boards, and in every column the occupied cells are a
contiguous prefix from the bottom (gravity), with the gutter row free. -/

def isLegal (p : Position) : Prop :=
  p.current &&& p.other = 0 ∧ p.current ≤ ALL_BITS ∧ p.other ≤ ALL_BITS ∧
  ∀ x < 7, ∃ h < 7, colOf (p.current ||| p.other) x = 2 ^ h - 1

instance (p : Position) : Decidable (isLegal p) := by
  unfold isLegal
  infer_instance

/-- The filled height of column `x` (for legal positions). -/
def colHeight (p : Position) (x : Nat) : Nat := popcount (colOf p.both x)

/-! ### Column values of the constant masks -/

theorem colOf_BOTTOM : ∀ x < 7, colOf BOTTOM_ROW x = 1 := by decide

theorem colOf_GUTTER : ∀ x < 7, colOf GUTTER_ROW x = 64 := by decide

theorem colOf_FULL : ∀ x < 7, colOf FULL_BOARD x = 63 := by decide

theorem colOf_ALL : ∀ x < 7, colOf ALL_BITS x = 127 := by decide

/-! ### Structural lemmas about legal positions -/

theorem isLegal.both_col {p : Position} (hp : isLegal p) {x : Nat} (hx : x < 7) :
    colOf p.both x = 2 ^ colHeight p x - 1 ∧ colHeight p x ≤ 6 := by
  obtain ⟨-, -, -, hcols⟩ := hp
  obtain ⟨h, hh, hcol⟩ := hcols x hx
  have hpc : colHeight p x = h := by
    rw [colHeight, Position.both, hcol, popcount_two_pow_sub_one (by omega)]
  rw [hpc, Position.both]
  exact ⟨hcol, by omega⟩

theorem isLegal.both_le {p : Position} (hp : isLegal p) : p.both ≤ ALL_BITS := by
  obtain ⟨-, hc, ho, -⟩ := hp
  have hA : ALL_BITS = 2 ^ 49 - 1 := by decide
  have := Nat.or_lt_two_pow (n := 49) (x := p.current) (y := p.other) (by omega) (by omega)
  rw [Position.both]
  omega

theorem isLegal.cur_col_add {p : Position} (hp : isLegal p) (x : Nat) :
    colOf p.current x + colOf p.other x = colOf p.both x := by
  have hd : colOf p.current x &&& colOf p.other x = 0 := by
    rw [← colOf_land, hp.1]
    rw [colOf_eq_div_mod]
    simp
  rw [Position.both, colOf_lor, lor_eq_add _ _ hd]

/-- Column sums of `both + BOTTOM_ROW` never carry on a legal position. -/
theorem isLegal.hc_nocarry {p : Position} (hp : isLegal p) :
    ∀ x, colOf p.both x + colOf BOTTOM_ROW x < 128 := by
  intro x
  rcases Nat.lt_or_ge x 7 with hx | hx
  · have h1 := (hp.both_col hx).1
    have h2 := (hp.both_col hx).2
    have h3 := colOf_BOTTOM x hx
    have : (2 : Nat) ^ colHeight p x ≤ 2 ^ 6 := Nat.pow_le_pow_right (by norm_num) h2
    omega
  · rw [colOf_high _ _ hp.both_le hx, colOf_high _ _ (by decide) hx]
    norm_num

theorem isLegal.hc_le {p : Position} (hp : isLegal p) : p.both + BOTTOM_ROW ≤ ALL_BITS :=
  add_le_all _ _ hp.both_le (by decide) hp.hc_nocarry

/-- On a legal position `get_height_cells` is plain (non-wrapping) addition. -/
theorem isLegal.hc_plain {p : Position} (hp : isLegal p) :
    p.get_height_cells = p.both + BOTTOM_ROW := by
  rw [Position.get_height_cells, add64]
  have h1 := hp.hc_le
  have h2 : ALL_BITS < M64 := by decide
  exact Nat.mod_eq_of_lt (by omega)

theorem isLegal.hc_col {p : Position} (hp : isLegal p) {x : Nat} (hx : x < 7) :
    colOf (p.both + BOTTOM_ROW) x = 2 ^ colHeight p x := by
  rw [colOf_add _ _ hp.hc_nocarry, (hp.both_col hx).1, colOf_BOTTOM x hx]
  have h2 := (hp.both_col hx).2
  have : (0 : Nat) < 2 ^ colHeight p x := by positivity
  omega

theorem isLegal.ply_eq {p : Position} (hp : isLegal p) :
    p.get_ply = colHeight p 0 + colHeight p 1 + colHeight p 2 + colHeight p 3 +
      colHeight p 4 + colHeight p 5 + colHeight p 6 := by
  rw [Position.get_ply, ← Position.both, popcount_cols _ hp.both_le]
  rfl

/-- The boards of a legal position are free of gutter bits. -/
theorem isLegal.both_gutter {p : Position} (hp : isLegal p) : p.both &&& GUTTER_ROW = 0 := by
  apply eq_of_colOf_eq (le_trans Nat.and_le_left hp.both_le) (by decide)
  intro x hx
  rw [colOf_land, (hp.both_col hx).1, colOf_GUTTER x hx]
  have h2 := (hp.both_col hx).2
  have hlt : (2 : Nat) ^ colHeight p x - 1 < 64 := by
    have : (2 : Nat) ^ colHeight p x ≤ 2 ^ 6 := Nat.pow_le_pow_right (by norm_num) h2
    omega
  have hz : ∀ m < 64, m &&& 64 = 0 := by decide
  rw [hz _ hlt]
  simp [colOf_eq_div_mod]

theorem isLegal.cur_gutter {p : Position} (hp : isLegal p) : p.current &&& GUTTER_ROW = 0 := by
  apply Nat.eq_of_testBit_eq
  intro i
  have hb := congrArg (fun n => n.testBit i) hp.both_gutter
  simp only [Nat.testBit_land, Position.both, Nat.testBit_or, Nat.zero_testBit] at hb
  simp only [Nat.testBit_land, Nat.zero_testBit]
  cases hcur : p.current.testBit i <;> cases hg : GUTTER_ROW.testBit i <;> simp_all

/-! ### Height bits and drops on legal positions -/

theorem and_colmask (n x : Nat) : n &&& (127 <<< (7 * x)) = colOf n x <<< (7 * x) := by
  apply Nat.eq_of_testBit_eq
  intro i
  rw [Nat.testBit_land, Nat.testBit_shiftLeft, Nat.testBit_shiftLeft]
  by_cases hge : 7 * x ≤ i
  · rw [decide_eq_true hge, Bool.true_and, Bool.true_and]
    by_cases hlt : i - 7 * x < 7
    · rw [testBit_colOf n x hlt, show 7 * x + (i - 7 * x) = i by omega,
        show (127 : Nat) = 2 ^ 7 - 1 from rfl, Nat.testBit_two_pow_sub_one]
      simp [hlt]
    · have h1 : (127 : Nat).testBit (i - 7 * x) = false := by
        rw [show (127 : Nat) = 2 ^ 7 - 1 from rfl, Nat.testBit_two_pow_sub_one]
        simp
        omega
      have h2 : (colOf n x).testBit (i - 7 * x) = false :=
        Nat.testBit_lt_two_pow (lt128_two_pow (colOf_lt n x) (by omega))
      simp [h1, h2]
  · simp [hge]

theorem add64_small {a b : Nat} (h : a + b < M64) : add64 a b = a + b := by
  rw [add64, Nat.mod_eq_of_lt h]

theorem isLegal.hc_lt_M64 {p : Position} (hp : isLegal p) : p.both + BOTTOM_ROW < M64 := by
  have h1 := hp.hc_le
  have h2 : ALL_BITS < M64 := by decide
  omega

theorem isLegal.height_bit {p : Position} (hp : isLegal p) {x : Nat} (hx : x < 7) :
    p.get_height_bit x = 2 ^ (7 * x + colHeight p x) := by
  have hf : FIRST_COLUMN = 127 := by decide
  have hb : BIT_HEIGHT = 7 := rfl
  rw [Position.get_height_bit, hf, hb, add64_small hp.hc_lt_M64, and_colmask,
    hp.hc_col hx, Nat.shiftLeft_eq, Nat.pow_add, Nat.mul_comm]

theorem gutter_testBit : ∀ x < 7, ∀ h < 7, GUTTER_ROW.testBit (7 * x + h) = decide (h = 6) := by
  decide

theorem and_two_pow_eq (n k : Nat) : n &&& 2 ^ k = if n.testBit k then 2 ^ k else 0 := by
  apply Nat.eq_of_testBit_eq
  intro i
  rw [Nat.testBit_land]
  by_cases hik : i = k
  · subst hik
    cases hnb : n.testBit i <;> simp [hnb, Nat.testBit_two_pow_self]
  · have h2 : (2 ^ k).testBit i = false := Nat.testBit_two_pow_of_ne (fun h => hik h.symm)
    cases hc : n.testBit k <;> simp [h2, hc]

/-- Legality of a drop: the column must not already be full. -/
theorem isLegal.drop_legal_iff {p : Position} (hp : isLegal p) {x : Nat} (hx : x < 7) :
    Bitboard.is_legal (p.drop x) = true ↔ colHeight p x ≤ 5 := by
  have hh := (hp.both_col hx).2
  rw [Position.drop, hp.height_bit hx, Bitboard.is_legal,
    Nat.and_or_distrib_left, Nat.and_comm GUTTER_ROW p.current, hp.cur_gutter,
    and_two_pow_eq, gutter_testBit x hx _ (by omega)]
  by_cases h6 : colHeight p x = 6
  · have hpos : (0 : Nat) < 2 ^ (7 * x + 6) := by positivity
    simp [h6]
  · simp [h6]
    omega

theorem col_two_pow : ∀ x < 7, ∀ h < 7, ∀ y < 7,
    colOf (2 ^ (7 * x + h)) y = if y = x then 2 ^ h else 0 := by decide

theorem isLegal.drop_eq {p : Position} (hp : isLegal p) {x : Nat} (hx : x < 7) :
    p.drop x = p.current ||| 2 ^ (7 * x + colHeight p x) := by
  rw [Position.drop, hp.height_bit hx]

theorem isLegal.pad_some {p : Position} (hp : isLegal p) {x : Nat} (hx : x < 7)
    (hle : colHeight p x ≤ 5) :
    p.position_after_drop x = some ⟨p.other, p.drop x⟩ := by
  rw [Position.position_after_drop]
  simp [(hp.drop_legal_iff hx).2 hle]

/-- Dropping a disc increases the ply by exactly one on a legal position. -/
theorem isLegal.ply_after_drop {p : Position} (hp : isLegal p) {x : Nat} (hx : x < 7)
    (hle : colHeight p x ≤ 5) :
    Position.get_ply ⟨p.other, p.drop x⟩ = p.get_ply + 1 := by
  have hnb : Position.both ⟨p.other, p.drop x⟩ = p.both ||| 2 ^ (7 * x + colHeight p x) := by
    rw [Position.both, hp.drop_eq hx]
    show p.other ||| (p.current ||| 2 ^ (7 * x + colHeight p x)) = _
    rw [← Nat.or_assoc, Nat.or_comm p.other p.current]
    rfl
  have hk : 7 * x + colHeight p x < 49 := by omega
  have hb2 : p.both ||| 2 ^ (7 * x + colHeight p x) ≤ ALL_BITS := by
    have hA : ALL_BITS = 2 ^ 49 - 1 := by decide
    have h1 : p.both < 2 ^ 49 := by have := hp.both_le; omega
    have h2 : (2 : Nat) ^ (7 * x + colHeight p x) < 2 ^ 49 :=
      Nat.pow_lt_pow_right (by norm_num) hk
    have := Nat.or_lt_two_pow (n := 49) h1 h2
    omega
  have hfuse : ∀ hh2 : Nat, hh2 < 6 → ((2 ^ hh2 - 1) ||| 2 ^ hh2) = 2 ^ (hh2 + 1) - 1 := by decide
  have hcolx : popcount (colOf (p.both ||| 2 ^ (7 * x + colHeight p x)) x) =
      colHeight p x + 1 := by
    rw [colOf_lor, col_two_pow x hx _ (by omega) x hx, if_pos rfl, (hp.both_col hx).1,
      hfuse _ (by omega), popcount_two_pow_sub_one (by omega)]
  have hcoly : ∀ y, y < 7 → y ≠ x →
      popcount (colOf (p.both ||| 2 ^ (7 * x + colHeight p x)) y) = colHeight p y := by
    intro y hy hne
    rw [colOf_lor, col_two_pow x hx _ (by omega) y hy, if_neg hne, Nat.or_zero]
    rfl
  have hstart : Position.get_ply ⟨p.other, p.drop x⟩ =
      popcount (p.both ||| 2 ^ (7 * x + colHeight p x)) := by
    rw [show Position.get_ply ⟨p.other, p.drop x⟩ =
        popcount (Position.both ⟨p.other, p.drop x⟩) from rfl, hnb]
  have e2 := hp.ply_eq
  rw [hstart, popcount_cols _ hb2, e2]
  interval_cases x
  · rw [hcolx, hcoly 1 (by norm_num) (by norm_num), hcoly 2 (by norm_num) (by norm_num),
      hcoly 3 (by norm_num) (by norm_num), hcoly 4 (by norm_num) (by norm_num),
      hcoly 5 (by norm_num) (by norm_num), hcoly 6 (by norm_num) (by norm_num)]
    omega
  · rw [hcolx, hcoly 0 (by norm_num) (by norm_num), hcoly 2 (by norm_num) (by norm_num),
      hcoly 3 (by norm_num) (by norm_num), hcoly 4 (by norm_num) (by norm_num),
      hcoly 5 (by norm_num) (by norm_num), hcoly 6 (by norm_num) (by norm_num)]
    omega
  · rw [hcolx, hcoly 0 (by norm_num) (by norm_num), hcoly 1 (by norm_num) (by norm_num),
      hcoly 3 (by norm_num) (by norm_num), hcoly 4 (by norm_num) (by norm_num),
      hcoly 5 (by norm_num) (by norm_num), hcoly 6 (by norm_num) (by norm_num)]
    omega
  · rw [hcolx, hcoly 0 (by norm_num) (by norm_num), hcoly 1 (by norm_num) (by norm_num),
      hcoly 2 (by norm_num) (by norm_num), hcoly 4 (by norm_num) (by norm_num),
      hcoly 5 (by norm_num) (by norm_num), hcoly 6 (by norm_num) (by norm_num)]
    omega
  · rw [hcolx, hcoly 0 (by norm_num) (by norm_num), hcoly 1 (by norm_num) (by norm_num),
      hcoly 2 (by norm_num) (by norm_num), hcoly 3 (by norm_num) (by norm_num),
      hcoly 5 (by norm_num) (by norm_num), hcoly 6 (by norm_num) (by norm_num)]
    omega
  · rw [hcolx, hcoly 0 (by norm_num) (by norm_num), hcoly 1 (by norm_num) (by norm_num),
      hcoly 2 (by norm_num) (by norm_num), hcoly 3 (by norm_num) (by norm_num),
      hcoly 4 (by norm_num) (by norm_num), hcoly 6 (by norm_num) (by norm_num)]
    omega
  · rw [hcolx, hcoly 0 (by norm_num) (by norm_num), hcoly 1 (by norm_num) (by norm_num),
      hcoly 2 (by norm_num) (by norm_num), hcoly 3 (by norm_num) (by norm_num),
      hcoly 4 (by norm_num) (by norm_num), hcoly 5 (by norm_num) (by norm_num)]
    omega

theorem both_swap (p : Position) : p.to_other_perspective.both = p.both :=
  Nat.or_comm p.other p.current

/-- `get_threat_cells` is masked by `FULL_BOARD`. -/
theorem get_threat_cells_shape (b : Nat) :
    ∃ w, Bitboard.get_threat_cells b = w &&& FULL_BOARD := by
  unfold Bitboard.get_threat_cells
  exact ⟨_, rfl⟩

theorem get_threat_cells_le (b : Nat) : Bitboard.get_threat_cells b ≤ ALL_BITS := by
  obtain ⟨w, hw⟩ := get_threat_cells_shape b
  rw [hw]
  calc w &&& FULL_BOARD ≤ FULL_BOARD := Nat.and_le_right
  _ ≤ ALL_BITS := by decide

theorem pc_and63_pow : ∀ a < 128, ∀ h < 7,
    popcount (a &&& 63 &&& 2 ^ h) ≤ 1 ∧ (h = 6 → a &&& 63 &&& 2 ^ h = 0) := by decide

/-- Two or more immediate enemy wins need two non-full columns, so the
ply is at most 40 on a legal position. -/
theorem isLegal.ply_le_40_of_imm2 {p : Position} (hp : isLegal p)
    (h2 : 2 ≤ popcount p.to_other_perspective.get_immediate_wins) : p.get_ply ≤ 40 := by
  obtain ⟨w, hw⟩ := get_threat_cells_shape p.other
  have himm : p.to_other_perspective.get_immediate_wins =
      (w &&& FULL_BOARD) &&& (p.both + BOTTOM_ROW) := by
    simp only [Position.get_immediate_wins, Position.to_other_perspective,
      Position.get_height_cells, Position.both]
    rw [hw, Nat.or_comm p.other p.current, ← Position.both, add64_small hp.hc_lt_M64]
  have himm_le : p.to_other_perspective.get_immediate_wins ≤ ALL_BITS := by
    rw [himm]
    calc w &&& FULL_BOARD &&& (p.both + BOTTOM_ROW) ≤ w &&& FULL_BOARD := Nat.and_le_left
    _ ≤ FULL_BOARD := Nat.and_le_right
    _ ≤ ALL_BITS := by decide
  have hcol : ∀ y, y < 7 →
      popcount (colOf p.to_other_perspective.get_immediate_wins y) + colHeight p y ≤ 6 := by
    intro y hy
    rw [himm, colOf_land, colOf_land, colOf_FULL y hy, hp.hc_col hy]
    have hfact := pc_and63_pow (colOf w y) (colOf_lt w y) (colHeight p y)
      (by have := (hp.both_col hy).2; omega)
    have hh := (hp.both_col hy).2
    by_cases h6 : colHeight p y = 6
    · rw [hfact.2 h6, popcount_zero]
      omega
    · have := hfact.1
      omega
  have e1 := popcount_cols _ himm_le
  have e2 := hp.ply_eq
  have c0 := hcol 0 (by norm_num)
  have c1 := hcol 1 (by norm_num)
  have c2 := hcol 2 (by norm_num)
  have c3 := hcol 3 (by norm_num)
  have c4 := hcol 4 (by norm_num)
  have c5 := hcol 5 (by norm_num)
  have c6 := hcol 6 (by norm_num)
  omega

/-! ## Four-in-a-row as geometry

`fourInARow` is the specification-side statement: four collinear set
cells, vertically, horizontally or along either diagonal.  `fourThrough`
additionally requires the line to pass through a given cell. -/

def hasCell (b x y : Nat) : Prop := b.testBit (7 * x + y) = true

def fourInARow (b : Nat) : Prop :=
  ∃ x < 7, ∃ y < 6,
    (y + 3 ≤ 5 ∧ hasCell b x y ∧ hasCell b x (y + 1) ∧ hasCell b x (y + 2) ∧
      hasCell b x (y + 3)) ∨
    (x + 3 ≤ 6 ∧ hasCell b x y ∧ hasCell b (x + 1) y ∧ hasCell b (x + 2) y ∧
      hasCell b (x + 3) y) ∨
    (x + 3 ≤ 6 ∧ y + 3 ≤ 5 ∧ hasCell b x y ∧ hasCell b (x + 1) (y + 1) ∧
      hasCell b (x + 2) (y + 2) ∧ hasCell b (x + 3) (y + 3)) ∨
    (x + 3 ≤ 6 ∧ y + 3 ≤ 5 ∧ hasCell b x (y + 3) ∧ hasCell b (x + 1) (y + 2) ∧
      hasCell b (x + 2) (y + 1) ∧ hasCell b (x + 3) y)

def fourThrough (b cx cy : Nat) : Prop :=
  ∃ x < 7, ∃ y < 6,
    (y + 3 ≤ 5 ∧ hasCell b x y ∧ hasCell b x (y + 1) ∧ hasCell b x (y + 2) ∧
      hasCell b x (y + 3) ∧ ∃ i < 4, cx = x ∧ cy = y + i) ∨
    (x + 3 ≤ 6 ∧ hasCell b x y ∧ hasCell b (x + 1) y ∧ hasCell b (x + 2) y ∧
      hasCell b (x + 3) y ∧ ∃ i < 4, cx = x + i ∧ cy = y) ∨
    (x + 3 ≤ 6 ∧ y + 3 ≤ 5 ∧ hasCell b x y ∧ hasCell b (x + 1) (y + 1) ∧
      hasCell b (x + 2) (y + 2) ∧ hasCell b (x + 3) (y + 3) ∧
      ∃ i < 4, cx = x + i ∧ cy = y + i) ∨
    (x + 3 ≤ 6 ∧ y + 3 ≤ 5 ∧ hasCell b x (y + 3) ∧ hasCell b (x + 1) (y + 2) ∧
      hasCell b (x + 2) (y + 1) ∧ hasCell b (x + 3) y ∧
      ∃ i < 4, cx = x + i ∧ cy = y + 3 - i)

instance (b x y : Nat) : Decidable (hasCell b x y) := by unfold hasCell; infer_instance

instance (b : Nat) : Decidable (fourInARow b) := by unfold fourInARow; infer_instance

instance (b cx cy : Nat) : Decidable (fourThrough b cx cy) := by
  unfold fourThrough; infer_instance

theorem fourInARow_of_fourThrough {b cx cy : Nat} (h : fourThrough b cx cy) :
    fourInARow b := by
  obtain ⟨x, hx, y, hy, hcase⟩ := h
  refine ⟨x, hx, y, hy, ?_⟩
  rcases hcase with ⟨a1, a2, a3, a4, a5, -⟩ | ⟨a1, a2, a3, a4, a5, -⟩ |
    ⟨a1, a2, a3, a4, a5, a6, -⟩ | ⟨a1, a2, a3, a4, a5, a6, -⟩
  · exact Or.inl ⟨a1, a2, a3, a4, a5⟩
  · exact Or.inr (Or.inl ⟨a1, a2, a3, a4, a5⟩)
  · exact Or.inr (Or.inr (Or.inl ⟨a1, a2, a3, a4, a5, a6⟩))
  · exact Or.inr (Or.inr (Or.inr ⟨a1, a2, a3, a4, a5, a6⟩))

/-- `has_won` with the constants evaluated. -/
theorem has_won_eq (b : Nat) : Bitboard.has_won b =
    ((((b &&& (b >>> 1)) &&& ((b &&& (b >>> 1)) >>> 2)) |||
      ((b &&& (b >>> 7)) &&& ((b &&& (b >>> 7)) >>> 14)) |||
      ((b &&& (b >>> 8)) &&& ((b &&& (b >>> 8)) >>> 16)) |||
      ((b &&& (b >>> 6)) &&& ((b &&& (b >>> 6)) >>> 12))) != 0) := rfl

theorem exists_testBit {n : Nat} (h : n ≠ 0) : ∃ i, n.testBit i = true := by
  by_contra hc
  push_neg at hc
  apply h
  apply Nat.eq_of_testBit_eq
  intro i
  rw [Nat.zero_testBit]
  exact Bool.eq_false_iff.mpr (hc i)

theorem chain_testBit (b s p : Nat) :
    ((b &&& (b >>> s)) &&& ((b &&& (b >>> s)) >>> (2 * s))).testBit p =
      (b.testBit p && b.testBit (p + s) && (b.testBit (p + 2 * s) && b.testBit (p + 3 * s))) := by
  simp only [Nat.testBit_land, Nat.testBit_shiftRight]
  rw [show s + p = p + s by omega, show 2 * s + p = p + 2 * s by omega,
    show s + (p + 2 * s) = p + 3 * s by omega]

theorem chain_bits {b s : Nat}
    (h : (b &&& (b >>> s)) &&& ((b &&& (b >>> s)) >>> (2 * s)) ≠ 0) :
    ∃ p, b.testBit p = true ∧ b.testBit (p + s) = true ∧ b.testBit (p + 2 * s) = true ∧
      b.testBit (p + 3 * s) = true := by
  obtain ⟨p, hp⟩ := exists_testBit h
  rw [chain_testBit] at hp
  simp only [Bool.and_eq_true] at hp
  exact ⟨p, hp.1.1, hp.1.2, hp.2.1, hp.2.2⟩

theorem chain_ne_zero {b s p : Nat} (h0 : b.testBit p = true) (h1 : b.testBit (p + s) = true)
    (h2 : b.testBit (p + 2 * s) = true) (h3 : b.testBit (p + 3 * s) = true) :
    (b &&& (b >>> s)) &&& ((b &&& (b >>> s)) >>> (2 * s)) ≠ 0 := by
  intro hz
  have := congrArg (fun n => n.testBit p) hz
  simp only [Nat.zero_testBit] at this
  rw [chain_testBit, h0, h1, h2, h3] at this
  simp at this

theorem bit_lt49 {b : Nat} (hb : b ≤ ALL_BITS) {i : Nat} (h : b.testBit i = true) : i < 49 := by
  by_contra hge
  have hA : ALL_BITS = 2 ^ 49 - 1 := by decide
  have : b < 2 ^ i := by
    calc b < 2 ^ 49 := by omega
    _ ≤ 2 ^ i := Nat.pow_le_pow_right (by norm_num) (by omega)
  rw [Nat.testBit_lt_two_pow this] at h
  exact Bool.false_ne_true h

theorem bit_mod7 {b : Nat} (hg : b &&& GUTTER_ROW = 0) {i : Nat} (h : b.testBit i = true)
    (hi : i < 49) : i % 7 ≠ 6 := by
  intro h6
  have hx : i / 7 < 7 := by omega
  have hcol : (colOf b (i / 7)).testBit 6 = true := by
    rw [testBit_colOf b (i / 7) (by norm_num), show 7 * (i / 7) + 6 = i by omega]
    exact h
  have hzero : colOf b (i / 7) &&& 64 = 0 := by
    have := congrArg (fun n => colOf n (i / 7)) hg
    simp only at this
    rw [colOf_land, colOf_GUTTER _ hx] at this
    rw [this]
    simp [colOf_eq_div_mod]
  rw [show (64 : Nat) = 2 ^ 6 by norm_num, and_two_pow_eq, hcol] at hzero
  simp at hzero

theorem lor_eq_zero_iff (a b : Nat) : a ||| b = 0 ↔ a = 0 ∧ b = 0 := by
  constructor
  · intro h
    constructor <;> apply Nat.eq_of_testBit_eq <;> intro i <;>
      have := congrArg (fun n => n.testBit i) h <;>
      simp only [Nat.testBit_or, Nat.zero_testBit, Bool.or_eq_false_iff] at this <;>
      simp [this.1, this.2]
  · rintro ⟨rfl, rfl⟩
    rfl

/-- The main geometric characterization of `has_won` for a 49-bit board
with an empty gutter row. -/
theorem has_won_iff_four {b : Nat} (hb : b ≤ ALL_BITS) (hg : b &&& GUTTER_ROW = 0) :
    Bitboard.has_won b = true ↔ fourInARow b := by
  rw [has_won_eq, bne_iff_ne]
  constructor
  · intro h
    have hsplit : ((b &&& (b >>> 1)) &&& ((b &&& (b >>> 1)) >>> 2)) ≠ 0 ∨
        ((b &&& (b >>> 7)) &&& ((b &&& (b >>> 7)) >>> 14)) ≠ 0 ∨
        ((b &&& (b >>> 8)) &&& ((b &&& (b >>> 8)) >>> 16)) ≠ 0 ∨
        ((b &&& (b >>> 6)) &&& ((b &&& (b >>> 6)) >>> 12)) ≠ 0 := by
      by_contra hc
      push_neg at hc
      obtain ⟨e1, e2, e3, e4⟩ := hc
      rw [e1, e2, e3, e4] at h
      exact h rfl
    rcases hsplit with hA | hB | hC | hD
    · obtain ⟨p, b0, b1, b2, b3⟩ := chain_bits (s := 1) hA
      have l0 := bit_lt49 hb b0
      have l1 := bit_lt49 hb b1
      have l2 := bit_lt49 hb b2
      have l3 := bit_lt49 hb b3
      have m0 := bit_mod7 hg b0 l0
      have m1 := bit_mod7 hg b1 l1
      have m2 := bit_mod7 hg b2 l2
      have m3 := bit_mod7 hg b3 l3
      refine ⟨p / 7, by omega, p % 7, by omega, Or.inl ⟨by omega, ?_, ?_, ?_, ?_⟩⟩ <;>
        unfold hasCell
      · rw [show 7 * (p / 7) + p % 7 = p by omega]; exact b0
      · rw [show 7 * (p / 7) + (p % 7 + 1) = p + 1 by omega]; exact b1
      · rw [show 7 * (p / 7) + (p % 7 + 2) = p + 2 * 1 by omega]; exact b2
      · rw [show 7 * (p / 7) + (p % 7 + 3) = p + 3 * 1 by omega]; exact b3
    · obtain ⟨p, b0, b1, b2, b3⟩ := chain_bits (s := 7) hB
      have l0 := bit_lt49 hb b0
      have l3 := bit_lt49 hb b3
      have m0 := bit_mod7 hg b0 l0
      refine ⟨p / 7, by omega, p % 7, by omega,
        Or.inr (Or.inl ⟨by omega, ?_, ?_, ?_, ?_⟩)⟩ <;> unfold hasCell
      · rw [show 7 * (p / 7) + p % 7 = p by omega]; exact b0
      · rw [show 7 * (p / 7 + 1) + p % 7 = p + 7 by omega]; exact b1
      · rw [show 7 * (p / 7 + 2) + p % 7 = p + 2 * 7 by omega]; exact b2
      · rw [show 7 * (p / 7 + 3) + p % 7 = p + 3 * 7 by omega]; exact b3
    · obtain ⟨p, b0, b1, b2, b3⟩ := chain_bits (s := 8) hC
      have l0 := bit_lt49 hb b0
      have l1 := bit_lt49 hb b1
      have l2 := bit_lt49 hb b2
      have l3 := bit_lt49 hb b3
      have m0 := bit_mod7 hg b0 l0
      have m1 := bit_mod7 hg b1 l1
      have m2 := bit_mod7 hg b2 l2
      have m3 := bit_mod7 hg b3 l3
      refine ⟨p / 7, by omega, p % 7, by omega,
        Or.inr (Or.inr (Or.inl ⟨by omega, by omega, ?_, ?_, ?_, ?_⟩))⟩ <;> unfold hasCell
      · rw [show 7 * (p / 7) + p % 7 = p by omega]; exact b0
      · rw [show 7 * (p / 7 + 1) + (p % 7 + 1) = p + 8 by omega]; exact b1
      · rw [show 7 * (p / 7 + 2) + (p % 7 + 2) = p + 2 * 8 by omega]; exact b2
      · rw [show 7 * (p / 7 + 3) + (p % 7 + 3) = p + 3 * 8 by omega]; exact b3
    · obtain ⟨p, b0, b1, b2, b3⟩ := chain_bits (s := 6) hD
      have l0 := bit_lt49 hb b0
      have l1 := bit_lt49 hb b1
      have l2 := bit_lt49 hb b2
      have l3 := bit_lt49 hb b3
      have m0 := bit_mod7 hg b0 l0
      have m1 := bit_mod7 hg b1 l1
      have m2 := bit_mod7 hg b2 l2
      have m3 := bit_mod7 hg b3 l3
      refine ⟨p / 7, by omega, p % 7 - 3, by omega,
        Or.inr (Or.inr (Or.inr ⟨by omega, by omega, ?_, ?_, ?_, ?_⟩))⟩ <;> unfold hasCell
      · rw [show 7 * (p / 7) + (p % 7 - 3 + 3) = p by omega]; exact b0
      · rw [show 7 * (p / 7 + 1) + (p % 7 - 3 + 2) = p + 6 by omega]; exact b1
      · rw [show 7 * (p / 7 + 2) + (p % 7 - 3 + 1) = p + 2 * 6 by omega]; exact b2
      · rw [show 7 * (p / 7 + 3) + (p % 7 - 3) = p + 3 * 6 by omega]; exact b3
  · intro hfour
    obtain ⟨x, hx, y, hy, hcase⟩ := hfour
    intro hzero
    rw [lor_eq_zero_iff, lor_eq_zero_iff, lor_eq_zero_iff] at hzero
    obtain ⟨⟨⟨eA, eB⟩, eC⟩, eD⟩ := hzero
    rcases hcase with ⟨hr, c0, c1, c2, c3⟩ | ⟨hr, c0, c1, c2, c3⟩ |
      ⟨hr, hr2, c0, c1, c2, c3⟩ | ⟨hr, hr2, c0, c1, c2, c3⟩
    · refine chain_ne_zero (s := 1) (p := 7 * x + y) c0 ?_ ?_ ?_ eA
      · rw [show 7 * x + y + 1 = 7 * x + (y + 1) by omega]; exact c1
      · rw [show 7 * x + y + 2 * 1 = 7 * x + (y + 2) by omega]; exact c2
      · rw [show 7 * x + y + 3 * 1 = 7 * x + (y + 3) by omega]; exact c3
    · refine chain_ne_zero (s := 7) (p := 7 * x + y) c0 ?_ ?_ ?_ eB
      · rw [show 7 * x + y + 7 = 7 * (x + 1) + y by omega]; exact c1
      · rw [show 7 * x + y + 2 * 7 = 7 * (x + 2) + y by omega]; exact c2
      · rw [show 7 * x + y + 3 * 7 = 7 * (x + 3) + y by omega]; exact c3
    · refine chain_ne_zero (s := 8) (p := 7 * x + y) c0 ?_ ?_ ?_ eC
      · rw [show 7 * x + y + 8 = 7 * (x + 1) + (y + 1) by omega]; exact c1
      · rw [show 7 * x + y + 2 * 8 = 7 * (x + 2) + (y + 2) by omega]; exact c2
      · rw [show 7 * x + y + 3 * 8 = 7 * (x + 3) + (y + 3) by omega]; exact c3
    · refine chain_ne_zero (s := 6) (p := 7 * x + (y + 3)) c0 ?_ ?_ ?_ eD
      · rw [show 7 * x + (y + 3) + 6 = 7 * (x + 1) + (y + 2) by omega]; exact c1
      · rw [show 7 * x + (y + 3) + 2 * 6 = 7 * (x + 2) + (y + 1) by omega]; exact c2
      · rw [show 7 * x + (y + 3) + 3 * 6 = 7 * (x + 3) + y by omega]; exact c3

/-- On a legal position `get_height` computes the column height. -/
theorem isLegal.get_height_eq {p : Position} (hp : isLegal p) {x : Nat} (hx : x < 7) :
    p.get_height x = colHeight p x := by
  have hh := (hp.both_col hx).2
  have hcol := (hp.both_col hx).1
  have hbh : BIT_HEIGHT = 7 := rfl
  rw [Position.get_height, hbh]
  have hdm : p.both >>> (7 * x) = 2 ^ colHeight p x - 1 + 128 * (p.both / 2 ^ (7 * x) / 128) := by
    rw [Nat.shiftRight_eq_div_pow]
    have hc : p.both / 2 ^ (7 * x) % 128 = 2 ^ colHeight p x - 1 := by
      rw [← hcol, colOf_eq_div_mod,
        show (128 : Nat) ^ x = 2 ^ (7 * x) from by
          rw [show (128 : Nat) = 2 ^ 7 by norm_num, ← Nat.pow_mul]]
    omega
  have hsmall : p.both >>> (7 * x) + 1 < M64 := by
    have h1 : p.both >>> (7 * x) ≤ p.both := by
      rw [Nat.shiftRight_eq_div_pow]
      exact Nat.div_le_self _ _
    have h2 := hp.both_le
    have h3 : ALL_BITS + 1 < M64 := by decide
    omega
  rw [add64_small hsmall, hdm]
  have hpow : (0 : Nat) < 2 ^ colHeight p x := by positivity
  have hfac : 2 ^ colHeight p x - 1 + 128 * (p.both / 2 ^ (7 * x) / 128) + 1 =
      2 ^ colHeight p x * (2 * (2 ^ (6 - colHeight p x) * (p.both / 2 ^ (7 * x) / 128)) + 1) := by
    have h128 : (128 : Nat) = 2 ^ colHeight p x * (2 * 2 ^ (6 - colHeight p x)) := by
      rw [show 2 ^ colHeight p x * (2 * 2 ^ (6 - colHeight p x)) =
        2 ^ colHeight p x * 2 ^ (6 - colHeight p x) * 2 by ring, ← Nat.pow_add,
        show colHeight p x + (6 - colHeight p x) = 6 by omega]
    calc 2 ^ colHeight p x - 1 + 128 * (p.both / 2 ^ (7 * x) / 128) + 1
        = 2 ^ colHeight p x + 128 * (p.both / 2 ^ (7 * x) / 128) := by omega
    _ = 2 ^ colHeight p x * (2 * (2 ^ (6 - colHeight p x) * (p.both / 2 ^ (7 * x) / 128)) + 1) := by
        rw [h128]; ring
  rw [hfac, trailing_zeros, tzAux_pow (by omega)]

theorem is_legal_iff (b : Nat) : Bitboard.is_legal b = true ↔ b &&& GUTTER_ROW = 0 := by
  rw [Bitboard.is_legal, Nat.and_comm]
  simp

/-- A cell of the board after a drop that is not the dropped cell was
already a cell of `current`. -/
theorem cell_transfer {cur x h u v : Nat} (hh : h < 7) (hv : v < 7)
    (hcell : hasCell (cur ||| 2 ^ (7 * x + h)) u v) (hne : ¬(u = x ∧ v = h)) :
    hasCell cur u v := by
  unfold hasCell at *
  rw [Nat.testBit_or, Bool.or_eq_true] at hcell
  rcases hcell with hc | hc
  · exact hc
  · rw [Nat.testBit_two_pow] at hc
    exfalso
    apply hne
    have := of_decide_eq_true hc
    omega

/-- After a legal drop by a player who had not already won, the new board
wins exactly when a four-in-a-row passes through the dropped cell. -/
theorem isLegal.drop_through {p : Position} (hp : isLegal p) {x : Nat} (hx : x < 7)
    (hleg : Bitboard.is_legal (p.drop x) = true)
    (hnw : Bitboard.has_won p.current = false) :
    (Bitboard.has_won (p.drop x) = true ↔ fourThrough (p.drop x) x (p.get_height x)) := by
  have hgh : p.get_height x = colHeight p x := hp.get_height_eq hx
  have hde : p.drop x = p.current ||| 2 ^ (7 * x + colHeight p x) := hp.drop_eq hx
  have hh6 : colHeight p x ≤ 6 := (hp.both_col hx).2
  have hdle : p.drop x ≤ ALL_BITS := by
    rw [hde]
    have hA : ALL_BITS = 2 ^ 49 - 1 := by decide
    have h1 : p.current < 2 ^ 49 := by have := hp.2.1; omega
    have h2 : (2 : Nat) ^ (7 * x + colHeight p x) < 2 ^ 49 :=
      Nat.pow_lt_pow_right (by norm_num) (by omega)
    have := Nat.or_lt_two_pow (n := 49) h1 h2
    omega
  have hdg : (p.drop x) &&& GUTTER_ROW = 0 := (is_legal_iff _).mp hleg
  rw [has_won_iff_four hdle hdg, hgh]
  constructor
  · intro hfour
    obtain ⟨x0, hx0, y0, hy0, hcase⟩ := hfour
    have hcur_iff := has_won_iff_four hp.2.1 hp.cur_gutter
    have hh7 : colHeight p x < 7 := by omega
    rcases hcase with ⟨hr, c0, c1, c2, c3⟩ | ⟨hr, c0, c1, c2, c3⟩ |
      ⟨hr1, hr2, c0, c1, c2, c3⟩ | ⟨hr1, hr2, c0, c1, c2, c3⟩
    · by_cases hhit : ∃ i < 4, x = x0 ∧ colHeight p x = y0 + i
      · exact ⟨x0, hx0, y0, hy0, Or.inl ⟨hr, c0, c1, c2, c3, hhit⟩⟩
      · exfalso
        push_neg at hhit
        rw [hde] at c0 c1 c2 c3
        have t0 := cell_transfer hh7 (by omega) c0
          (by rintro ⟨e1, e2⟩; exact hhit 0 (by omega) e1.symm (by omega))
        have t1 := cell_transfer hh7 (by omega) c1
          (by rintro ⟨e1, e2⟩; exact hhit 1 (by omega) e1.symm (by omega))
        have t2 := cell_transfer hh7 (by omega) c2
          (by rintro ⟨e1, e2⟩; exact hhit 2 (by omega) e1.symm (by omega))
        have t3 := cell_transfer hh7 (by omega) c3
          (by rintro ⟨e1, e2⟩; exact hhit 3 (by omega) e1.symm (by omega))
        have hwon := hcur_iff.mpr ⟨x0, hx0, y0, hy0, Or.inl ⟨hr, t0, t1, t2, t3⟩⟩
        rw [hnw] at hwon
        exact Bool.false_ne_true hwon
    · by_cases hhit : ∃ i < 4, x = x0 + i ∧ colHeight p x = y0
      · exact ⟨x0, hx0, y0, hy0, Or.inr (Or.inl ⟨hr, c0, c1, c2, c3, hhit⟩)⟩
      · exfalso
        push_neg at hhit
        rw [hde] at c0 c1 c2 c3
        have t0 := cell_transfer hh7 (by omega) c0
          (by rintro ⟨e1, e2⟩; exact hhit 0 (by omega) (by omega) (by omega))
        have t1 := cell_transfer hh7 (by omega) c1
          (by rintro ⟨e1, e2⟩; exact hhit 1 (by omega) (by omega) (by omega))
        have t2 := cell_transfer hh7 (by omega) c2
          (by rintro ⟨e1, e2⟩; exact hhit 2 (by omega) (by omega) (by omega))
        have t3 := cell_transfer hh7 (by omega) c3
          (by rintro ⟨e1, e2⟩; exact hhit 3 (by omega) (by omega) (by omega))
        have hwon := hcur_iff.mpr ⟨x0, hx0, y0, hy0, Or.inr (Or.inl ⟨hr, t0, t1, t2, t3⟩)⟩
        rw [hnw] at hwon
        exact Bool.false_ne_true hwon
    · by_cases hhit : ∃ i < 4, x = x0 + i ∧ colHeight p x = y0 + i
      · exact ⟨x0, hx0, y0, hy0, Or.inr (Or.inr (Or.inl ⟨hr1, hr2, c0, c1, c2, c3, hhit⟩))⟩
      · exfalso
        push_neg at hhit
        rw [hde] at c0 c1 c2 c3
        have t0 := cell_transfer hh7 (by omega) c0
          (by rintro ⟨e1, e2⟩; exact hhit 0 (by omega) (by omega) (by omega))
        have t1 := cell_transfer hh7 (by omega) c1
          (by rintro ⟨e1, e2⟩; exact hhit 1 (by omega) (by omega) (by omega))
        have t2 := cell_transfer hh7 (by omega) c2
          (by rintro ⟨e1, e2⟩; exact hhit 2 (by omega) (by omega) (by omega))
        have t3 := cell_transfer hh7 (by omega) c3
          (by rintro ⟨e1, e2⟩; exact hhit 3 (by omega) (by omega) (by omega))
        have hwon := hcur_iff.mpr
          ⟨x0, hx0, y0, hy0, Or.inr (Or.inr (Or.inl ⟨hr1, hr2, t0, t1, t2, t3⟩))⟩
        rw [hnw] at hwon
        exact Bool.false_ne_true hwon
    · by_cases hhit : ∃ i < 4, x = x0 + i ∧ colHeight p x = y0 + 3 - i
      · exact ⟨x0, hx0, y0, hy0, Or.inr (Or.inr (Or.inr ⟨hr1, hr2, c0, c1, c2, c3, hhit⟩))⟩
      · exfalso
        push_neg at hhit
        rw [hde] at c0 c1 c2 c3
        have t0 := cell_transfer hh7 (by omega) c0
          (by rintro ⟨e1, e2⟩; exact hhit 0 (by omega) (by omega) (by omega))
        have t1 := cell_transfer hh7 (by omega) c1
          (by rintro ⟨e1, e2⟩; exact hhit 1 (by omega) (by omega) (by omega))
        have t2 := cell_transfer hh7 (by omega) c2
          (by rintro ⟨e1, e2⟩; exact hhit 2 (by omega) (by omega) (by omega))
        have t3 := cell_transfer hh7 (by omega) c3
          (by rintro ⟨e1, e2⟩; exact hhit 3 (by omega) (by omega) (by omega))
        have hwon := hcur_iff.mpr
          ⟨x0, hx0, y0, hy0, Or.inr (Or.inr (Or.inr ⟨hr1, hr2, t0, t1, t2, t3⟩))⟩
        rw [hnw] at hwon
        exact Bool.false_ne_true hwon
  · exact fourInARow_of_fourThrough

/-! ### Facts about move bitmaps and `quick_evaluate` -/

theorem unblocked_subset_legal (p : Position) :
    p.get_unblocked_moves &&& p.get_legal_moves = p.get_unblocked_moves := by
  rw [Position.get_unblocked_moves, Position.get_legal_moves]
  apply Nat.eq_of_testBit_eq
  intro i
  simp only [Nat.testBit_land]
  cases h1 : (not64 (p.to_other_perspective.get_threats >>> 1)).testBit i <;>
    cases h2 : (p.get_height_cells &&& FULL_BOARD).testBit i <;> simp_all [Nat.testBit_land]

theorem imm_subset_legal (p : Position) :
    p.to_other_perspective.get_immediate_wins &&& p.get_legal_moves =
      p.to_other_perspective.get_immediate_wins := by
  obtain ⟨w, hw⟩ := get_threat_cells_shape p.other
  have himm : p.to_other_perspective.get_immediate_wins =
      (w &&& FULL_BOARD) &&& p.get_height_cells := by
    simp only [Position.get_immediate_wins, Position.to_other_perspective,
      Position.get_height_cells, Position.both]
    rw [hw, Nat.or_comm p.other p.current]
  rw [himm, Position.get_legal_moves]
  apply Nat.eq_of_testBit_eq
  intro i
  simp only [Nat.testBit_land]
  cases h1 : w.testBit i <;> cases h2 : FULL_BOARD.testBit i <;>
    cases h3 : p.get_height_cells.testBit i <;> simp

theorem pow_and63 : ∀ h2 < 7, ((2 : Nat) ^ h2 &&& 63) = if h2 ≤ 5 then 2 ^ h2 else 0 := by
  decide

/-- Any column of a sub-bitmap of the legal moves admits a legal drop. -/
theorem isLegal.pad_isSome_of_subset {p : Position} (hp : isLegal p) {m x : Nat}
    (hsub : m &&& p.get_legal_moves = m) (hx : x < 7)
    (hm : MoveBitmap.has_move m x = true) : (p.position_after_drop x).isSome = true := by
  have hcolm : colOf m x ≠ 0 := by
    intro h0
    rw [MoveBitmap.has_move] at hm
    have hbh : BIT_HEIGHT = 7 := rfl
    rw [hbh, Nat.mul_comm x 7] at hm
    have hfc : FIRST_COLUMN = 127 := by decide
    rw [hfc] at hm
    rw [show (m >>> (7 * x)) &&& 127 = colOf m x from rfl, h0] at hm
    simp at hm
  have hlegcol : colOf p.get_legal_moves x = if colHeight p x ≤ 5 then 2 ^ colHeight p x else 0 := by
    rw [Position.get_legal_moves, colOf_land, colOf_FULL x hx, hp.hc_plain, hp.hc_col hx]
    exact pow_and63 _ (by have := (hp.both_col hx).2; omega)
  have hh5 : colHeight p x ≤ 5 := by
    by_contra hgt
    rw [if_neg hgt] at hlegcol
    have : colOf m x = colOf m x &&& colOf p.get_legal_moves x := by
      rw [← colOf_land, hsub]
    rw [hlegcol] at this
    simp at this
    exact hcolm this
  rw [hp.pad_some hx hh5]
  rfl

/-- `quick_evaluate` answers `Loss` whenever the opponent has two or
more immediate winning cells. -/
theorem quick_eval_loss (p : Position) (ab : AlphaBeta)
    (h2 : 2 ≤ popcount p.to_other_perspective.get_immediate_wins) :
    Engine.quick_evaluate p ab = QuickEvaluation.score Score.Loss := by
  rw [Engine.quick_evaluate]
  by_cases hu : p.get_unblocked_moves = 0
  · simp [hu]
  · simp only [if_neg hu]
    rw [if_pos]
    rw [MoveBitmap.count_moves]
    omega

/-- Legal positions have at most 42 discs, and at most 41 when some
column is not full. -/
theorem isLegal.ply_le_41 {p : Position} (hp : isLegal p) {x : Nat} (hx : x < 7)
    (h5 : colHeight p x ≤ 5) : p.get_ply ≤ 41 := by
  have e := hp.ply_eq
  have b0 := (hp.both_col (show 0 < 7 by norm_num)).2
  have b1 := (hp.both_col (show 1 < 7 by norm_num)).2
  have b2 := (hp.both_col (show 2 < 7 by norm_num)).2
  have b3 := (hp.both_col (show 3 < 7 by norm_num)).2
  have b4 := (hp.both_col (show 4 < 7 by norm_num)).2
  have b5 := (hp.both_col (show 5 < 7 by norm_num)).2
  have b6 := (hp.both_col (show 6 < 7 by norm_num)).2
  interval_cases x <;> omega

/-! ## Concrete positions used by witnesses and counterexamples -/

/-- Column 0 holds four discs of the mover (an already-won board), all
other columns are empty. -/
def posVert : Position := ⟨15, 0⟩

/-- The mover has a vertical three in column 0 (winning drop available);
the opponent has three on the bottom row of columns 3-5, with immediate
wins at columns 2 and 6 (reachable by the variation 141516). -/
def posDoubleThreat : Position := ⟨7, 2 ^ 21 + 2 ^ 28 + 2 ^ 35⟩

/-- The mover has discs at (0,0), (0,1), (1,0) and no winning drop; the
opponent has three on the bottom row of columns 3-5, with immediate wins
at columns 2 and 6 (reachable by the variation 142516). -/
def posNoWinDrop : Position := ⟨131, 2 ^ 21 + 2 ^ 28 + 2 ^ 35⟩

/-- A 41-disc position, no four-in-a-row on either side, in which the
single remaining drop completes a four for the mover (found by replaying
a legal game). -/
def posFull41Win : Position := ⟨224508707624743, 54749863577752⟩

/-- A 41-disc position, no four-in-a-row on either side, in which the
single remaining drop does not complete a four (found by replaying a
legal game). -/
def posFull41Draw : Position := ⟨35989494091284, 243269143695787⟩

/-- A completely full board with no four-in-a-row on either side. -/
def posFullBoard : Position := ⟨243269143695787, 35989494615572⟩

/-- A concrete engine state (small transposition table, no book). -/
def eng0 : Engine :=
  { position := Position.empty
    trans_table := TransTable.new 1
    work_count := 0
    ply := 0
    book := none }

/-! ## Claim C3 -/

/-- C3 (amended): for every 49-bit single-player board with no bits in
the gutter row, `has_won` is true iff the board has four collinear set
cells; and for a legal position whose mover has not already won and a
legal drop in column `x`, `has_won` of the board after the drop holds
iff a four-in-a-row passes through the dropped cell
`(x, get_height p x)`. -/
theorem claim_C3 :
    (∀ b : Nat, b ≤ ALL_BITS → b &&& GUTTER_ROW = 0 →
      (Bitboard.has_won b = true ↔ fourInARow b)) ∧
    (∀ (p : Position) (x : Nat), isLegal p → x < 7 →
      Bitboard.is_legal (p.drop x) = true → Bitboard.has_won p.current = false →
      (Bitboard.has_won (p.drop x) = true ↔ fourThrough (p.drop x) x (p.get_height x))) :=
  ⟨fun _ hb hg => has_won_iff_four hb hg,
   fun _ _ hp hx hleg hnw => hp.drop_through hx hleg hnw⟩

/-- C3 counterexample to the claim as stated (without the requirement
that the mover has not already won): on the legal position `posVert`
the drop in column 1 is legal and produces a board with `has_won` true,
yet no four-in-a-row passes through the dropped cell (1, 0); the
pre-existing vertical four in column 0 is the only one. -/
theorem claim_C3_counterexample :
    isLegal posVert ∧ Bitboard.is_legal (posVert.drop 1) = true ∧
    Bitboard.has_won (posVert.drop 1) = true ∧
    ¬ fourThrough (posVert.drop 1) 1 (posVert.get_height 1) :=
  ⟨by decide, by decide, by decide, by decide⟩

/-- C3 witness: the amended theorem applied to the vertical-four board
`15` and to the winning drop of `posDoubleThreat` in column 0. -/
theorem claim_C3_witness :
    fourInARow 15 ∧
    fourThrough (posDoubleThreat.drop 0) 0 (posDoubleThreat.get_height 0) :=
  ⟨(claim_C3.1 15 (by decide) (by decide)).mp (by decide),
   (claim_C3.2 posDoubleThreat 0 (by decide) (by decide) (by decide) (by decide)).mp
     (by decide)⟩

/-! ## Claims C1 and C6 -/

theorem any_winning_drop_true {p : Position} {x : Nat} (hx : x < 7)
    (hxl : Bitboard.is_legal (p.drop x) = true) (hxw : Bitboard.has_won (p.drop x) = true) :
    (List.range BOARD_WIDTH).any
      (fun x => Bitboard.is_legal (p.drop x) && Bitboard.has_won (p.drop x)) = true := by
  rw [List.any_eq_true]
  exact ⟨x, by simp [List.mem_range, BOARD_WIDTH]; omega, by simp [hxl, hxw]⟩

theorem any_winning_drop_false {p : Position}
    (hnone : ∀ x < 7, ¬(Bitboard.is_legal (p.drop x) = true ∧ Bitboard.has_won (p.drop x) = true)) :
    (List.range BOARD_WIDTH).any
      (fun x => Bitboard.is_legal (p.drop x) && Bitboard.has_won (p.drop x)) = false := by
  rw [List.any_eq_false]
  intro x hmem
  rw [List.mem_range] at hmem
  intro hand
  rw [Bool.and_eq_true] at hand
  exact hnone x (by simpa [BOARD_WIDTH] using hmem) ⟨hand.1, hand.2⟩

/-- C1 (amended): on a legal root position where neither player has won:
if the current player has a legal winning drop then `solve` returns Win;
and if the current player has no legal winning drop while the opponent
has two or more immediate winning cells then `solve` returns Loss. -/
theorem claim_C1 :
    ∀ (e : Engine) (p : Position), isLegal p →
      Bitboard.has_won p.current = false → Bitboard.has_won p.other = false →
      ((∃ x < 7, Bitboard.is_legal (p.drop x) = true ∧ Bitboard.has_won (p.drop x) = true) →
        (Engine.solve (e.set_position p)).1 = Score.Win) ∧
      ((∀ x < 7, ¬(Bitboard.is_legal (p.drop x) = true ∧ Bitboard.has_won (p.drop x) = true)) →
        2 ≤ popcount p.to_other_perspective.get_immediate_wins →
        (Engine.solve (e.set_position p)).1 = Score.Loss) := by
  intro e p hp hc ho
  constructor
  · rintro ⟨x, hx, hxl, hxw⟩
    have h5 : colHeight p x ≤ 5 := (hp.drop_legal_iff hx).mp hxl
    have h41 : p.get_ply ≤ 41 := hp.ply_le_41 hx h5
    rw [Engine.solve]
    simp only [Engine.set_position]
    rw [if_neg (by simp [hc]), if_neg (by simp [ho]),
      if_neg (show ¬ p.get_ply = BOARD_WIDTH * BOARD_HEIGHT by
        show ¬ p.get_ply = 42
        omega),
      if_pos (any_winning_drop_true hx hxl hxw)]
  · intro hnone h2
    have h40 : p.get_ply ≤ 40 := hp.ply_le_40_of_imm2 h2
    rw [Engine.solve]
    simp only [Engine.set_position]
    rw [if_neg (by simp [hc]), if_neg (by simp [ho]),
      if_neg (show ¬ p.get_ply = BOARD_WIDTH * BOARD_HEIGHT by
        show ¬ p.get_ply = 42
        omega),
      if_neg (by rw [any_winning_drop_false hnone]; simp)]
    rw [show BOARD_WIDTH * BOARD_HEIGHT = 41 + 1 from rfl, Engine.negamax.eq_def]
    simp only [quick_eval_loss p AlphaBeta.new h2]
    rw [if_neg (show ¬ p.get_ply = BOARD_WIDTH * BOARD_HEIGHT - 1 by
        show ¬ p.get_ply = 41
        omega)]

/-- C1 counterexample to the claim as stated: on the legal root position
`posDoubleThreat` neither player has won and the opponent has two
immediate winning cells, so the claim demands Loss; but the current
player also has a winning drop, and `solve` returns Win. -/
theorem claim_C1_counterexample :
    isLegal posDoubleThreat ∧
    Bitboard.has_won posDoubleThreat.current = false ∧
    Bitboard.has_won posDoubleThreat.other = false ∧
    2 ≤ popcount posDoubleThreat.to_other_perspective.get_immediate_wins ∧
    (Engine.solve (eng0.set_position posDoubleThreat)).1 = Score.Win ∧
    Score.Win ≠ Score.Loss :=
  ⟨by decide, by decide, by decide, by decide, by decide, by decide⟩

/-- C1 witness: the amended theorem applied to `posDoubleThreat` (Win
branch) and to `posNoWinDrop` (Loss branch). -/
theorem claim_C1_witness :
    (Engine.solve (eng0.set_position posDoubleThreat)).1 = Score.Win ∧
    (Engine.solve (eng0.set_position posNoWinDrop)).1 = Score.Loss :=
  ⟨(claim_C1 eng0 posDoubleThreat (by decide) (by decide) (by decide)).1
      ⟨0, by norm_num, by decide, by decide⟩,
   (claim_C1 eng0 posNoWinDrop (by decide) (by decide) (by decide)).2
      (by decide) (by decide)⟩

/-- C6 (amended): on a legal 41-disc position where neither player has
won and the single remaining drop does not win for the mover, `solve`
returns Draw and leaves the engine state untouched (no recursion, no
work counted, no table write). -/
theorem claim_C6 :
    ∀ (e : Engine) (p : Position), isLegal p → p.get_ply = 41 →
      Bitboard.has_won p.current = false → Bitboard.has_won p.other = false →
      (∀ x < 7, ¬(Bitboard.is_legal (p.drop x) = true ∧ Bitboard.has_won (p.drop x) = true)) →
      Engine.solve (e.set_position p) = (Score.Draw, e.set_position p) := by
  intro e p hp h41 hc ho hnone
  rw [Engine.solve]
  simp only [Engine.set_position]
  rw [if_neg (by simp [hc]), if_neg (by simp [ho]),
    if_neg (show ¬ p.get_ply = BOARD_WIDTH * BOARD_HEIGHT by
      show ¬ p.get_ply = 42
      omega),
    if_neg (by rw [any_winning_drop_false hnone]; simp)]
  rw [Engine.negamax.eq_def,
    if_pos (show p.get_ply = BOARD_WIDTH * BOARD_HEIGHT - 1 from h41)]

/-- C6 counterexample to the claim as stated: `posFull41Win` is a legal
41-disc position where neither player has yet won, but the single
remaining drop wins for the mover, so `solve` returns Win rather than
Draw. -/
theorem claim_C6_counterexample :
    isLegal posFull41Win ∧ posFull41Win.get_ply = 41 ∧
    Bitboard.has_won posFull41Win.current = false ∧
    Bitboard.has_won posFull41Win.other = false ∧
    (Engine.solve (eng0.set_position posFull41Win)).1 = Score.Win ∧
    Score.Win ≠ Score.Draw :=
  ⟨by decide, by decide, by decide, by decide, by decide, by decide⟩

/-- C6 witness: the amended theorem applied to `posFull41Draw`. -/
theorem claim_C6_witness :
    Engine.solve (eng0.set_position posFull41Draw) =
      (Score.Draw, eng0.set_position posFull41Draw) :=
  claim_C6 eng0 posFull41Draw (by decide) (by decide) (by decide) (by decide) (by decide)

/-! ## Claim C7 -/

theorem autofinish_cases (p : Position) (m : Nat) :
    p.autofinish_score m = Score.Unknown ∨ p.autofinish_score m = Score.Loss ∨
      p.autofinish_score m = Score.DrawOrLoss := by
  rw [Position.autofinish_score]
  by_cases h1 : m &&& EVEN_ROWS ≠ 0
  · rw [if_pos h1]
    left
    rfl
  · rw [if_neg h1]
    dsimp only
    split
    · left; rfl
    · split
      · right; left; rfl
      · right; right; rfl

/-- C7: `autofinish_score` returns Unknown whenever the playable bitmap
meets `EVEN_ROWS`, and whenever it returns an informative score that
score is Loss or DrawOrLoss, never Win, Draw or DrawOrWin. -/
theorem claim_C7 :
    ∀ (p : Position) (m : Nat),
      (m &&& EVEN_ROWS ≠ 0 → p.autofinish_score m = Score.Unknown) ∧
      (p.autofinish_score m ≠ Score.Unknown →
        p.autofinish_score m = Score.Loss ∨ p.autofinish_score m = Score.DrawOrLoss) := by
  intro p m
  constructor
  · intro h
    rw [Position.autofinish_score, if_pos h]
  · intro h
    rcases autofinish_cases p m with hu | hres
    · exact absurd hu h
    · exact hres

/-- C7 witness: the theorem applied to the empty position with a bitmap
meeting `EVEN_ROWS`, and to a full drawn board with an empty bitmap
(where the autofinish answer is informative). -/
theorem claim_C7_witness :
    ((2 : Nat) &&& EVEN_ROWS ≠ 0 ∧ Position.empty.autofinish_score 2 = Score.Unknown) ∧
    (posFullBoard.autofinish_score 0 = Score.Loss ∨
      posFullBoard.autofinish_score 0 = Score.DrawOrLoss) :=
  ⟨⟨by decide, (claim_C7 Position.empty 2).1 (by decide)⟩,
   (claim_C7 posFullBoard 0).2 (by decide)⟩

/-! ## Claim C5 -/

/-- C5 (amended): a legal drop produces a position with ply one higher,
whose new `current` is the previous `other`, and whose new `other` is
the previous `current` together with the newly dropped disc, that is,
`drop p x`. -/
theorem claim_C5 :
    ∀ (p : Position) (x : Nat) (q : Position), isLegal p → x < 7 →
      p.position_after_drop x = some q →
      q.current = p.other ∧ q.other = p.drop x ∧ q.get_ply = p.get_ply + 1 := by
  intro p x q hp hx hpad
  have hleg : Bitboard.is_legal (p.drop x) = true := by
    by_contra hneg
    rw [Position.position_after_drop, if_pos hneg] at hpad
    exact Option.noConfusion hpad
  have h5 := (hp.drop_legal_iff hx).mp hleg
  rw [hp.pad_some hx h5] at hpad
  obtain rfl : (⟨p.other, p.drop x⟩ : Position) = q := by injection hpad
  exact ⟨rfl, rfl, hp.ply_after_drop hx h5⟩

/-- C5 counterexample to the claim as stated: dropping in column 0 of
the empty position yields `other = 1`, which is not the previous
`current = 0` — the new `other` contains the dropped disc. -/
theorem claim_C5_counterexample :
    Position.empty.position_after_drop 0 = some (⟨0, 1⟩ : Position) ∧
    (⟨0, 1⟩ : Position).other ≠ Position.empty.current :=
  ⟨by decide, by decide⟩

/-- C5 witness: the amended theorem applied to `posDoubleThreat` with a
drop in column 1. -/
theorem claim_C5_witness :
    (⟨2 ^ 21 + 2 ^ 28 + 2 ^ 35, 135⟩ : Position).current = posDoubleThreat.other ∧
    (⟨2 ^ 21 + 2 ^ 28 + 2 ^ 35, 135⟩ : Position).other = posDoubleThreat.drop 1 ∧
    (⟨2 ^ 21 + 2 ^ 28 + 2 ^ 35, 135⟩ : Position).get_ply = posDoubleThreat.get_ply + 1 :=
  claim_C5 posDoubleThreat 1 ⟨2 ^ 21 + 2 ^ 28 + 2 ^ 35, 135⟩ (by decide) (by decide) (by decide)

/-! ## Claim C9 -/

/-- C9: every move bitmap that `quick_evaluate` asks the caller to
explore is a subset of the position's legal moves, and every column of
it admits a legal drop, so `position_after_drop(x).unwrap()` in the
negamax child loop cannot panic. -/
theorem claim_C9 :
    ∀ (p : Position) (ab : AlphaBeta) (m : Nat), isLegal p →
      Engine.quick_evaluate p ab = QuickEvaluation.moves m →
      m &&& p.get_legal_moves = m ∧
      ∀ x < 7, MoveBitmap.has_move m x = true → (p.position_after_drop x).isSome = true := by
  intro p ab m hp hq
  have hsub : m &&& p.get_legal_moves = m := by
    rw [Engine.quick_evaluate] at hq
    by_cases hu : p.get_unblocked_moves = 0
    · rw [if_pos hu] at hq
      exact QuickEvaluation.noConfusion hq
    · rw [if_neg hu] at hq
      dsimp only at hq
      split at hq
      · exact QuickEvaluation.noConfusion hq
      · split at hq
        · split at hq
          · exact QuickEvaluation.noConfusion hq
          · obtain rfl : p.to_other_perspective.get_immediate_wins = m := by injection hq
            exact imm_subset_legal p
        · split at hq
          · exact QuickEvaluation.noConfusion hq
          · obtain rfl : p.get_unblocked_moves = m := by injection hq
            exact unblocked_subset_legal p
  exact ⟨hsub, fun x hx hm => hp.pad_isSome_of_subset hsub hx hm⟩

/-- C9 witness: the theorem applied to the empty position, where
`quick_evaluate` returns the bottom-row bitmap. -/
theorem claim_C9_witness :
    BOTTOM_ROW &&& Position.empty.get_legal_moves = BOTTOM_ROW ∧
    (Position.empty.position_after_drop 0).isSome = true :=
  ⟨(claim_C9 Position.empty AlphaBeta.new BOTTOM_ROW (by decide) (by decide)).1,
   (claim_C9 Position.empty AlphaBeta.new BOTTOM_ROW (by decide) (by decide)).2
     0 (by norm_num) (by decide)⟩

/-! ## Claim C2 -/

theorem one_shl (k : Nat) : (1 : Nat) <<< k = 2 ^ k := by
  rw [Nat.shiftLeft_eq, Nat.one_mul]

theorem cp2Aux_bound : ∀ f n, n < 2 ^ f → n < 2 ^ cp2Aux f n := by
  intro f
  induction f with
  | zero => intro n hn; simpa [cp2Aux] using hn
  | succ f ih =>
    intro n hn
    by_cases h0 : n = 0
    · simp [h0, cp2Aux]
    · rw [cp2Aux, if_neg h0]
      have hd : n / 2 < 2 ^ f := by
        have := Nat.pow_succ 2 f
        omega
    
      have := ih (n / 2) hd
      have hp : (2 : Nat) ^ (1 + cp2Aux f (n / 2)) = 2 * 2 ^ cp2Aux f (n / 2) := by
        rw [Nat.pow_add, Nat.pow_one]
      omega

theorem cp2Aux_le : ∀ f k n, n < 2 ^ k → cp2Aux f n ≤ k := by
  intro f
  induction f with
  | zero => intro k n _; simp [cp2Aux]
  | succ f ih =>
    intro k n hn
    by_cases h0 : n = 0
    · simp [h0, cp2Aux]
    · rw [cp2Aux, if_neg h0]
      obtain ⟨k', rfl⟩ : ∃ k', k = k' + 1 := by
        refine ⟨k - 1, ?_⟩
        have : k ≠ 0 := by
          rintro rfl
          simp at hn
          omega
        omega
      have hd : n / 2 < 2 ^ k' := by
        have := Nat.pow_succ 2 k'
        omega
      have := ih k' (n / 2) hd
      omega

theorem getD_set_self : ∀ (l : List (Nat × Nat)) (i : Nat) (a d : Nat × Nat),
    i < l.length → (l.set i a).getD i d = a := by
  intro l
  induction l with
  | nil => intro i a d h; simp at h
  | cons hd tl ih =>
    intro i a d h
    cases i with
    | zero => rfl
    | succ i =>
      simp only [List.set, List.getD, List.length] at *
      exact ih i a d (by omega)

theorem entry_key_extract {key s w kb : Nat} (hkey : key < 2 ^ kb) :
    (key ||| shl64 s kb ||| shl64 w (kb + 3)) &&& (2 ^ kb - 1) = key := by
  apply Nat.eq_of_testBit_eq
  intro i
  simp only [Nat.testBit_land, Nat.testBit_or, Nat.testBit_two_pow_sub_one, shl64,
    Nat.testBit_mod_two_pow, Nat.testBit_shiftLeft, M64]
  by_cases hik : i < kb
  · have h1 : decide (kb ≤ i) = false := by simp; omega
    have h2 : decide (kb + 3 ≤ i) = false := by simp; omega
    simp [hik, h1, h2]
  · have h1 : key.testBit i = false :=
      Nat.testBit_lt_two_pow (lt_of_lt_of_le hkey (Nat.pow_le_pow_right (by norm_num) (by omega)))
    simp [hik, h1]

theorem entry_score_extract {key s w kb : Nat} (hkey : key < 2 ^ kb) (hs : s < 8)
    (hkb : kb + 3 ≤ 64) :
    ((key ||| shl64 s kb ||| shl64 w (kb + 3)) &&&
      (((1 <<< (kb + 3)) - 1) ^^^ ((1 <<< kb) - 1))) >>> kb = s := by
  apply Nat.eq_of_testBit_eq
  intro j
  rw [Nat.testBit_shiftRight]
  simp only [Nat.testBit_land, Nat.testBit_or, Nat.testBit_xor, one_shl,
    Nat.testBit_two_pow_sub_one, shl64, Nat.testBit_mod_two_pow, Nat.testBit_shiftLeft, M64]
  by_cases hj : j < 3
  · have hkc : key.testBit (kb + j) = false :=
      Nat.testBit_lt_two_pow (lt_of_lt_of_le hkey (Nat.pow_le_pow_right (by norm_num) (by omega)))
    have e2 : ¬ (kb + 3 ≤ kb + j) := by omega
    have e5 : kb + j < 64 := by omega
    have e6 : kb + j - kb = j := by omega
    simp [hkc, hj, e2, e5, e6]
  · have e3 : ¬ (kb + j < kb + 3) := by omega
    have e4 : ¬ (kb + j < kb) := by omega
    have h8 : (8 : Nat) ≤ 2 ^ j := by
      calc (8 : Nat) = 2 ^ 3 := by norm_num
        _ ≤ 2 ^ j := Nat.pow_le_pow_right (by norm_num) (by omega)
    have hsj : s.testBit j = false := Nat.testBit_lt_two_pow (by omega)
    simp [e3, e4, hsj]

theorem from_u64_val (s : Score) : Score.from_u64_fast s.val = s := by
  cases s <;> rfl

theorem val_lt8 (s : Score) : s.val < 8 := by
  cases s <;> decide

/-- `store` keeps the table geometry and writes the new entry into the
addressed slot; the entry lands in the expensive half, or else the
expensive half keeps a key-mismatched entry and the new entry lands in
the recent half. -/
theorem store_spec (t : TransTable) (code : Nat) (s : Score) (w : Nat) :
    (TransTable.store t code s w).table_size = t.table_size ∧
    (TransTable.store t code s w).key_bits = t.key_bits ∧
    (TransTable.store t code s w).key_mask = t.key_mask ∧
    (TransTable.store t code s w).score_mask = t.score_mask ∧
    ∃ a b : Nat,
      (TransTable.store t code s w).slots = t.slots.set (code % t.table_size) (a, b) ∧
      (a = code / t.table_size ||| shl64 s.val t.key_bits ||| shl64 w t.key_score_bits ∨
       (a &&& t.key_mask ≠ code / t.table_size ∧
        b = code / t.table_size ||| shl64 s.val t.key_bits ||| shl64 w t.key_score_bits)) := by
  rw [TransTable.store]
  split
  · exact ⟨rfl, rfl, rfl, rfl, _, _, rfl, Or.inl rfl⟩
  · split
    · exact ⟨rfl, rfl, rfl, rfl, _, _, rfl, Or.inl rfl⟩
    · rename_i hne
      split
      · exact ⟨rfl, rfl, rfl, rfl, _, _, rfl, Or.inl rfl⟩
      · exact ⟨rfl, rfl, rfl, rfl, _, _, rfl, Or.inr ⟨hne, rfl⟩⟩

/-- **C2.** For every position code below `2^49` and informative score `s`,
`fetch code` immediately after `store code s work` returns `s`, for any prior
slot contents and stored count of a table built by `TransTable::new`; and a
`fetch` whose key matches neither entry of the addressed slot returns
`Unknown`. -/
theorem claim_C2 :
    (∀ (size : Nat), 0 < size → ∀ (slots : List (Nat × Nat)), slots.length = size →
      ∀ (sc code : Nat), code < 2 ^ POSITION_BITS →
      ∀ (s : Score), s ≠ Score.Unknown → ∀ (work : Nat),
        TransTable.fetch
          (TransTable.store { TransTable.new size with slots := slots, stored_count := sc }
            code s work) code = s) ∧
    (∀ (t : TransTable) (code : Nat),
      (t.slots.getD (code % t.table_size) (0, 0)).1 &&& t.key_mask ≠ code / t.table_size →
      (t.slots.getD (code % t.table_size) (0, 0)).2 &&& t.key_mask ≠ code / t.table_size →
      TransTable.fetch t code = Score.Unknown) := by
  constructor
  · intro size hsize slots hlen sc code hcode s hs work
    have hlt49 : ((1 <<< POSITION_BITS) - 1) / size < 2 ^ 49 := by
      have h1 : ((1 <<< POSITION_BITS) - 1) / size ≤ (1 <<< POSITION_BITS) - 1 :=
        Nat.div_le_self _ _
      have h2 : (1 <<< POSITION_BITS) - 1 < 2 ^ 49 := by
        rw [one_shl]; norm_num [POSITION_BITS, BOARD_WIDTH, BOARD_HEIGHT]
      omega
    have hK49 : closest_power_of_two (((1 <<< POSITION_BITS) - 1) / size) ≤ 49 :=
      cp2Aux_le 64 49 _ hlt49
    have hKbound : ((1 <<< POSITION_BITS) - 1) / size <
        2 ^ closest_power_of_two (((1 <<< POSITION_BITS) - 1) / size) := by
      apply cp2Aux_bound
      calc ((1 <<< POSITION_BITS) - 1) / size < 2 ^ 49 := hlt49
        _ ≤ 2 ^ 64 := Nat.pow_le_pow_right (by norm_num) (by norm_num)
    have hkeylt : code / size <
        2 ^ closest_power_of_two (((1 <<< POSITION_BITS) - 1) / size) := by
      have hd : code / size ≤ ((1 <<< POSITION_BITS) - 1) / size := by
        apply Nat.div_le_div_right
        rw [one_shl]
        omega
      omega
    obtain ⟨hts, hkb, hkm, hsm, a, b, hslots, hab⟩ :=
      store_spec { TransTable.new size with slots := slots, stored_count := sc } code s work
    have e1 : ({ TransTable.new size with
        slots := slots, stored_count := sc } : TransTable).table_size = size := rfl
    have e2 : ({ TransTable.new size with
        slots := slots, stored_count := sc } : TransTable).key_bits
        = closest_power_of_two (((1 <<< POSITION_BITS) - 1) / size) := rfl
    have e3 : ({ TransTable.new size with
        slots := slots, stored_count := sc } : TransTable).key_mask
        = (1 <<< closest_power_of_two (((1 <<< POSITION_BITS) - 1) / size)) - 1 := rfl
    have e4 : ({ TransTable.new size with
        slots := slots, stored_count := sc } : TransTable).score_mask
        = ((1 <<< (closest_power_of_two (((1 <<< POSITION_BITS) - 1) / size) + 3)) - 1) ^^^
          ((1 <<< closest_power_of_two (((1 <<< POSITION_BITS) - 1) / size)) - 1) := rfl
    have e5 : ({ TransTable.new size with
        slots := slots, stored_count := sc } : TransTable).key_score_bits
        = closest_power_of_two (((1 <<< POSITION_BITS) - 1) / size) + 3 := rfl
    have e6 : ({ TransTable.new size with
        slots := slots, stored_count := sc } : TransTable).slots = slots := rfl
    rw [e1] at hts
    rw [e2] at hkb
    rw [e3] at hkm
    rw [e4] at hsm
    rw [e1, e2, e3, e5] at hab
    rw [e1, e6] at hslots
    have hidx : code % size < slots.length := by
      rw [hlen]; exact Nat.mod_lt _ hsize
    have hget : ((TransTable.store { TransTable.new size with
        slots := slots, stored_count := sc } code s work).slots.getD
        (code % size) (0, 0)) = (a, b) := by
      rw [hslots]
      exact getD_set_self slots (code % size) (a, b) (0, 0) hidx
    rw [TransTable.fetch]
    dsimp only
    rw [hts, hkb, hkm, hsm, hget]
    rcases hab with ha | ⟨hamiss, hb⟩
    · have hmatch : a &&&
          ((1 <<< closest_power_of_two (((1 <<< POSITION_BITS) - 1) / size)) - 1)
          = code / size := by
        rw [ha, one_shl (closest_power_of_two (((1 <<< POSITION_BITS) - 1) / size))]
        exact entry_key_extract hkeylt
      rw [if_pos hmatch]
      rw [ha]
      dsimp only
      rw [entry_score_extract hkeylt (val_lt8 s) (by omega)]
      exact from_u64_val s
    · rw [if_neg hamiss]
      have hmatch : b &&&
          ((1 <<< closest_power_of_two (((1 <<< POSITION_BITS) - 1) / size)) - 1)
          = code / size := by
        rw [hb, one_shl (closest_power_of_two (((1 <<< POSITION_BITS) - 1) / size))]
        exact entry_key_extract hkeylt
      rw [if_pos hmatch]
      rw [hb]
      dsimp only
      rw [entry_score_extract hkeylt (val_lt8 s) (by omega)]
      exact from_u64_val s
  · intro t code h1 h2
    rw [TransTable.fetch]
    dsimp only
    rw [if_neg h1, if_neg h2]

/-- Witness for C2: a concrete store/fetch roundtrip and a concrete miss. -/
theorem claim_C2_witness :
    TransTable.fetch
      (TransTable.store
        { TransTable.new 5 with slots := List.replicate 5 (0, 0), stored_count := 0 }
        291 Score.Win 7) 291 = Score.Win ∧
    TransTable.fetch (TransTable.new 3) 5 = Score.Unknown :=
  ⟨claim_C2.1 5 (by decide) (List.replicate 5 (0, 0)) (by decide) 0 291 (by decide)
      Score.Win (by decide) 7,
   claim_C2.2 (TransTable.new 3) 5 (by decide) (by decide)⟩

/-! ## Claim C10 -/

/-- The child loop restores `ply` around every recursive call and never
touches the opening book, provided the callback does. -/
theorem childLoop_frame (F : Engine → AlphaBeta → Score × Engine)
    (hF : ∀ e ab, (F e ab).2.ply = e.ply ∧ (F e ab).2.book = e.book) :
    ∀ (ms : List Move) (e : Engine) (ab : AlphaBeta) (bs : Score) (uc : Nat),
      (Engine.childLoop F ms e ab bs uc).1.ply = e.ply ∧
      (Engine.childLoop F ms e ab bs uc).1.book = e.book := by
  intro ms
  induction ms with
  | nil => intro e ab bs uc; exact ⟨rfl, rfl⟩
  | cons m rest ih =>
    intro e ab bs uc
    have h1 := hF { e with position := m.new_position, ply := e.ply + 1 } ab.flip
    simp only [Engine.childLoop]
    split
    · split
      · refine ⟨?_, ?_⟩
        · show (F { e with position := m.new_position, ply := e.ply + 1 } ab.flip).2.ply - 1
            = e.ply
          rw [h1.1]
          rfl
        · exact h1.2
      · refine ⟨?_, ?_⟩
        · rw [(ih _ _ _ _).1]
          show (F { e with position := m.new_position, ply := e.ply + 1 } ab.flip).2.ply - 1
            = e.ply
          rw [h1.1]
          rfl
        · rw [(ih _ _ _ _).2]
          exact h1.2
    · refine ⟨?_, ?_⟩
      · rw [(ih _ _ _ _).1]
        show (F { e with position := m.new_position, ply := e.ply + 1 } ab.flip).2.ply - 1
          = e.ply
        rw [h1.1]
        rfl
      · rw [(ih _ _ _ _).2]
        exact h1.2

set_option maxHeartbeats 1600000 in
/-- `negamax` restores `position` and `ply` and never touches the book. -/
theorem negamax_frame : ∀ (d : Nat) (e : Engine) (ab : AlphaBeta),
    (Engine.negamax d e ab).2.position = e.position ∧
    (Engine.negamax d e ab).2.ply = e.ply ∧
    (Engine.negamax d e ab).2.book = e.book := by
  intro d
  induction d with
  | zero =>
    intro e ab
    rw [Engine.negamax.eq_def]
    split
    · exact ⟨rfl, rfl, rfl⟩
    · exact ⟨rfl, rfl, rfl⟩
  | succ d ih =>
    intro e ab
    have hcl := childLoop_frame (Engine.negamax d)
      (fun e' ab' => ⟨(ih e' ab').2.1, (ih e' ab').2.2⟩)
    rw [Engine.negamax.eq_def]
    split
    · exact ⟨rfl, rfl, rfl⟩
    · dsimp only
      split
      · exact ⟨rfl, rfl, rfl⟩
      · split
        · refine ⟨rfl, ?_, ?_⟩
          · show (Engine.negamax d _ _).2.ply - 1 = e.ply
            rw [(ih _ _).2.1]
            rfl
          · exact (ih _ _).2.2
        · split
          · exact ⟨rfl, rfl, rfl⟩
          · split
            · exact ⟨rfl, rfl, rfl⟩
            · repeat' split
              all_goals
                first
                | exact ⟨rfl, rfl, rfl⟩
                | exact ⟨rfl, (hcl _ _ _ _ _).1, (hcl _ _ _ _ _).2⟩

/-- **C10.** Every call to `negamax` leaves the engine's `position` and `ply`
fields exactly as they were at entry (the forced-move branch and the child
loop save and restore them around each recursion), and it never replaces the
opening book; consequently after `solve` returns, the engine still holds the
root position, ply and book. -/
theorem claim_C10 :
    (∀ (d : Nat) (e : Engine) (ab : AlphaBeta),
      (Engine.negamax d e ab).2.position = e.position ∧
      (Engine.negamax d e ab).2.ply = e.ply ∧
      (Engine.negamax d e ab).2.book = e.book) ∧
    (∀ e : Engine,
      (Engine.solve e).2.position = e.position ∧
      (Engine.solve e).2.ply = e.ply ∧
      (Engine.solve e).2.book = e.book) := by
  refine ⟨negamax_frame, ?_⟩
  intro e
  rw [Engine.solve]
  split
  · exact ⟨rfl, rfl, rfl⟩
  · split
    · exact ⟨rfl, rfl, rfl⟩
    · split
      · exact ⟨rfl, rfl, rfl⟩
      · split
        · exact ⟨rfl, rfl, rfl⟩
        · exact negamax_frame _ _ _

/-! ## Claim C4 -/

theorem isLegal.oth_gutter {p : Position} (hp : isLegal p) : p.other &&& GUTTER_ROW = 0 := by
  apply Nat.eq_of_testBit_eq
  intro i
  have hb := congrArg (fun n => n.testBit i) hp.both_gutter
  simp only [Nat.testBit_land, Position.both, Nat.testBit_or, Nat.zero_testBit] at hb
  simp only [Nat.testBit_land, Nat.zero_testBit]
  cases hoth : p.other.testBit i <;> cases hg : GUTTER_ROW.testBit i <;> simp_all

theorem isLegal.cur_col_le {p : Position} (hp : isLegal p) (x : Nat) :
    colOf p.current x ≤ colOf p.both x ∧ colOf p.other x ≤ colOf p.both x := by
  have h := hp.cur_col_add x
  omega

/-- On a legal position every column of `both` stays below 64. -/
theorem isLegal.both_col64 {p : Position} (hp : isLegal p) {x : Nat} (hx : x < 7) :
    colOf p.both x < 64 := by
  obtain ⟨h1, h2⟩ := hp.both_col hx
  have : (2 : Nat) ^ colHeight p x ≤ 2 ^ 6 := Nat.pow_le_pow_right (by norm_num) h2
  omega

/-- The position code of a legal position is a plain (non-wrapping) sum. -/
theorem isLegal.code_plain {p : Position} (hp : isLegal p) :
    p.to_position_code = BOTTOM_ROW + p.current + p.current + p.other := by
  obtain ⟨-, hc, ho, -⟩ := hp
  have hA : ALL_BITS = 2 ^ 49 - 1 := by decide
  have hB : BOTTOM_ROW < 2 ^ 49 := by decide
  have hM : M64 = 2 ^ 64 := rfl
  have h49 : (2 : Nat) ^ 49 * 4 < 2 ^ 64 := by norm_num
  have hM64 : M64 = 18446744073709551616 := by decide
  rw [Position.to_position_code,
    show add64 BOTTOM_ROW p.current = BOTTOM_ROW + p.current from add64_small (by omega),
    show add64 (BOTTOM_ROW + p.current) p.current = BOTTOM_ROW + p.current + p.current from
      add64_small (by omega),
    show add64 (BOTTOM_ROW + p.current + p.current) p.other
        = BOTTOM_ROW + p.current + p.current + p.other from add64_small (by omega)]

/-- Columns of the three-step code sum never carry. -/
theorem isLegal.code_nocarry {p : Position} (hp : isLegal p) :
    (∀ x, colOf BOTTOM_ROW x + colOf p.current x < 128) ∧
    (∀ x, colOf (BOTTOM_ROW + p.current) x + colOf p.current x < 128) ∧
    (∀ x, colOf (BOTTOM_ROW + p.current + p.current) x + colOf p.other x < 128) := by
  have hc := hp.2.1
  have ho := hp.2.2.1
  have hcur64 : ∀ x < 7, colOf p.current x < 64 := fun x hx =>
    lt_of_le_of_lt (hp.cur_col_le x).1 (hp.both_col64 hx)
  have h1 : ∀ x, colOf BOTTOM_ROW x + colOf p.current x < 128 := by
    intro x
    rcases Nat.lt_or_ge x 7 with hx | hx
    · have := hcur64 x hx
      have := colOf_BOTTOM x hx
      omega
    · rw [colOf_high _ _ (by decide) hx, colOf_high _ _ hc hx]
      norm_num
  refine ⟨h1, ?_, ?_⟩
  · intro x
    rcases Nat.lt_or_ge x 7 with hx | hx
    · rw [colOf_add _ _ h1, colOf_BOTTOM x hx]
      have := hcur64 x hx
      omega
    · have hs1 : BOTTOM_ROW + p.current ≤ ALL_BITS := add_le_all _ _ (by decide) hc h1
      rw [colOf_high _ _ hs1 hx, colOf_high _ _ hc hx]
      norm_num
  · intro x
    have hs1 : BOTTOM_ROW + p.current ≤ ALL_BITS := add_le_all _ _ (by decide) hc h1
    have h2 : ∀ y, colOf (BOTTOM_ROW + p.current) y + colOf p.current y < 128 := by
      intro y
      rcases Nat.lt_or_ge y 7 with hy | hy
      · rw [colOf_add _ _ h1, colOf_BOTTOM y hy]
        have := hcur64 y hy
        omega
      · rw [colOf_high _ _ hs1 hy, colOf_high _ _ hc hy]
        norm_num
    rcases Nat.lt_or_ge x 7 with hx | hx
    · rw [colOf_add _ _ h2, colOf_add _ _ h1, colOf_BOTTOM x hx]
      have hadd := hp.cur_col_add x
      have := hp.both_col64 hx
      omega
    · have hs2 : BOTTOM_ROW + p.current + p.current ≤ ALL_BITS := add_le_all _ _ hs1 hc h2
      rw [colOf_high _ _ hs2 hx, colOf_high _ _ ho hx]
      norm_num

/-- The position code stays inside the 49 board bits on a legal position. -/
theorem isLegal.code_le {p : Position} (hp : isLegal p) : p.to_position_code ≤ ALL_BITS := by
  obtain ⟨h1, h2, h3⟩ := hp.code_nocarry
  have hc := hp.2.1
  have ho := hp.2.2.1
  have hs1 : BOTTOM_ROW + p.current ≤ ALL_BITS := add_le_all _ _ (by decide) hc h1
  have hs2 : BOTTOM_ROW + p.current + p.current ≤ ALL_BITS := add_le_all _ _ hs1 hc h2
  rw [hp.code_plain]
  exact add_le_all _ _ hs2 ho h3

/-- Column `x` of the position code is `2 ^ height + current`. -/
theorem isLegal.code_col {p : Position} (hp : isLegal p) {x : Nat} (hx : x < 7) :
    colOf p.to_position_code x = 2 ^ colHeight p x + colOf p.current x := by
  obtain ⟨h1, h2, h3⟩ := hp.code_nocarry
  rw [hp.code_plain, colOf_add _ _ h3, colOf_add _ _ h2, colOf_add _ _ h1,
    colOf_BOTTOM x hx]
  have hadd := hp.cur_col_add x
  have hcol := (hp.both_col hx).1
  have hh : (0 : Nat) < 2 ^ colHeight p x := by positivity
  omega

/-- The per-column action of one silhouette iteration. -/
def colStep (c : Nat) : Nat := c ||| ((c >>> 1) &&& 63)

def colStepIter : Nat → Nat → Nat
  | 0, c => c
  | f + 1, c => colStepIter f (colStep c)

theorem colOf_shr1_and63 (t x : Nat) : colOf (t >>> 1) x &&& 63 = (colOf t x >>> 1) &&& 63 := by
  apply Nat.eq_of_testBit_eq
  intro i
  simp only [Nat.testBit_land, Nat.testBit_shiftRight]
  by_cases hi : i < 6
  · rw [testBit_colOf _ _ (by omega), testBit_colOf _ _ (by omega), Nat.testBit_shiftRight,
      show 1 + (7 * x + i) = 7 * x + (1 + i) by omega]
  · have h63 : (63 : Nat).testBit i = false := by
      rw [show (63 : Nat) = 2 ^ 6 - 1 from rfl, Nat.testBit_two_pow_sub_one]
      simp
      omega
    simp [h63]

theorem colOf_silStep (t : Nat) {x : Nat} (hx : x < 7) :
    colOf (Bitboard.silStep t) x = colStep (colOf t x) := by
  rw [Bitboard.silStep, colStep, colOf_lor, colOf_land, colOf_FULL x hx, colOf_shr1_and63]

theorem colOf_silAux : ∀ (f t : Nat) {x : Nat}, x < 7 →
    colOf (Bitboard.silAux f t) x = colStepIter f (colOf t x) := by
  intro f
  induction f with
  | zero => intro t x hx; rfl
  | succ f ih =>
    intro t x hx
    show colOf (Bitboard.silAux f (Bitboard.silStep t)) x = colStepIter f (colStep (colOf t x))
    rw [ih _ hx, colOf_silStep t hx]

/-- Per-column facts about decoding a code column `2 ^ h + c`, checked over
all `h < 7`, `c < 2 ^ h`. -/
theorem code_col_facts : ∀ h < 7, ∀ c < 2 ^ h,
    ((h = 6 ∧ c = 0) ∨ colStepIter 5 (2 ^ h + c) &&& 1 = 1) ∧
    (colStepIter 5 (2 ^ h + c) >>> 1) &&& 63 = 2 ^ h - 1 ∧
    (2 ^ h + c) &&& (2 ^ h - 1) = c ∧
    (127 ^^^ (2 ^ h + c)) &&& (2 ^ h - 1) = (2 ^ h - 1) ^^^ c := by decide

theorem lor_xor_cancel {a b : Nat} (h : a &&& b = 0) : (a ||| b) ^^^ a = b := by
  apply Nat.eq_of_testBit_eq
  intro i
  have hb := congrArg (fun n => n.testBit i) h
  simp only [Nat.testBit_land, Nat.zero_testBit] at hb
  simp only [Nat.testBit_xor, Nat.testBit_or]
  cases h1 : a.testBit i <;> cases h2 : b.testBit i <;> simp_all

theorem colOf_M64m1 : ∀ x < 7, colOf (M64 - 1) x = 127 := by decide

/-- **C4.** For every position satisfying the spec's Position invariants
(disjoint players, gravity columns inside the board, and neither player
already having four in a row), decoding the position code returns the
position itself, so re-encoding yields the same code:
`to_position_code (from_position_code (to_position_code p)) = to_position_code p`. -/
theorem claim_C4 (p : Position) (hp : isLegal p)
    (hw : Bitboard.has_won p.current = false ∧ Bitboard.has_won p.other = false) :
    Position.from_position_code p.to_position_code = some p ∧
    (Position.from_position_code p.to_position_code).map Position.to_position_code
      = some p.to_position_code := by
  have hcur_lt : ∀ x < 7, colOf p.current x < 2 ^ colHeight p x := by
    intro x hx
    have h1 := (hp.cur_col_le x).1
    have h2 := (hp.both_col hx).1
    have h3 : (0 : Nat) < 2 ^ colHeight p x := by positivity
    omega
  have hfull : ∀ x < 7, colHeight p x = 6 → colOf p.current x ≠ 0 := by
    intro x hx h6 hc0
    have hadd := hp.cur_col_add x
    have hbcol := (hp.both_col hx).1
    rw [h6] at hbcol
    have hoth : colOf p.other x = 63 := by norm_num at hbcol; omega
    have hcell : ∀ y, y < 6 → hasCell p.other x y := by
      intro y hy
      show p.other.testBit (7 * x + y) = true
      rw [← testBit_colOf _ _ (by omega), hoth,
        show (63 : Nat) = 2 ^ 6 - 1 from rfl, Nat.testBit_two_pow_sub_one]
      simp [hy]
    have h4 : fourInARow p.other :=
      ⟨x, hx, 0, by norm_num, Or.inl ⟨by norm_num, hcell 0 (by norm_num),
        hcell 1 (by norm_num), hcell 2 (by norm_num), hcell 3 (by norm_num)⟩⟩
    have hwon := (has_won_iff_four hp.2.2.1 hp.oth_gutter).mpr h4
    rw [hw.2] at hwon
    exact Bool.noConfusion hwon
  have hsil : ∀ x < 7, colOf (Bitboard.get_silhouette p.to_position_code) x
      = colStepIter 5 (2 ^ colHeight p x + colOf p.current x) := by
    intro x hx
    rw [Bitboard.get_silhouette, show BOARD_HEIGHT - 1 = 5 from rfl, colOf_silAux _ _ hx,
      hp.code_col hx]
  have hfacts := fun x (hx : x < 7) =>
    code_col_facts (colHeight p x) (by have := (hp.both_col hx).2; omega)
      (colOf p.current x) (hcur_lt x hx)
  have hcheck : Bitboard.get_silhouette p.to_position_code &&& BOTTOM_ROW = BOTTOM_ROW := by
    apply eq_of_colOf_eq (le_trans Nat.and_le_right (by decide)) (by decide)
    intro x hx
    rw [colOf_land, colOf_BOTTOM x hx, hsil x hx]
    rcases (hfacts x hx).1 with ⟨h6, hc0⟩ | hbit
    · exact absurd hc0 (hfull x hx h6)
    · exact hbit
  have hboth : (Bitboard.get_silhouette p.to_position_code >>> 1) &&& FULL_BOARD = p.both := by
    apply eq_of_colOf_eq (le_trans Nat.and_le_right (by decide)) hp.both_le
    intro x hx
    rw [colOf_land, colOf_FULL x hx, colOf_shr1_and63, hsil x hx, (hfacts x hx).2.1,
      (hp.both_col hx).1]
  have hdec : Position.from_position_code p.to_position_code = some p := by
    rw [Position.from_position_code]
    dsimp only
    rw [if_neg (not_not_intro hcheck), hboth]
    have hcur' : p.to_position_code &&& p.both = p.current := by
      apply eq_of_colOf_eq (le_trans Nat.and_le_right hp.both_le) hp.2.1
      intro x hx
      rw [colOf_land, hp.code_col hx, (hp.both_col hx).1, (hfacts x hx).2.2.1]
    have hoth' : not64 p.to_position_code &&& p.both = p.other := by
      apply eq_of_colOf_eq (le_trans Nat.and_le_right hp.both_le) hp.2.2.1
      intro x hx
      rw [colOf_land, not64, colOf_xor, colOf_M64m1 x hx, hp.code_col hx, (hp.both_col hx).1,
        Nat.xor_comm, (hfacts x hx).2.2.2, ← (hp.both_col hx).1, Position.both, colOf_lor]
      have hd : colOf p.current x &&& colOf p.other x = 0 := by
        rw [← colOf_land, hp.1, colOf_eq_div_mod]
        simp
      exact lor_xor_cancel hd
    rw [hcur', hoth']
  refine ⟨hdec, ?_⟩
  rw [hdec]
  rfl

/-- Witness for C4 at a concrete legal midgame position. -/
theorem claim_C4_witness :
    Position.from_position_code posDoubleThreat.to_position_code = some posDoubleThreat ∧
    (Position.from_position_code posDoubleThreat.to_position_code).map Position.to_position_code
      = some posDoubleThreat.to_position_code :=
  claim_C4 posDoubleThreat (by decide) ⟨by decide, by decide⟩

/-! ## Claim C8 -/

/-- The value of one hexadecimal digit, mirroring the branch structure of
the parse loop. -/
def hexVal (c : Char) : Nat :=
  if c.isDigit then c.toNat - '0'.toNat
  else if 'a' ≤ c ∧ c ≤ 'f' then c.toNat - 'a'.toNat + 10
  else if 'A' ≤ c ∧ c ≤ 'F' then c.toNat - 'A'.toNat + 10
  else 0

/-- The spec's notion of a hexadecimal digit. -/
def isHexDigit (c : Char) : Prop :=
  c.isDigit = true ∨ ('a' ≤ c ∧ c ≤ 'f') ∨ ('A' ≤ c ∧ c ≤ 'F')

instance (c : Char) : Decidable (isHexDigit c) := by
  unfold isHexDigit
  infer_instance

/-- The numeric value of a string of hexadecimal digits. -/
def hexValue (cs : List Char) : Nat := cs.foldl (fun a c => a * 16 + hexVal c) 0

/-- The value of an optionally plus-signed hexadecimal string. -/
def signedHexValue (cs : List Char) : Nat :=
  if cs.headD ' ' = '+' then hexValue cs.tail else hexValue cs

/-- The spec's five score characters. -/
def scoreCharP (c : Char) : Prop := c = '-' ∨ c = '<' ∨ c = '=' ∨ c = '>' ∨ c = '+'

instance (c : Char) : Decidable (scoreCharP c) := by
  unfold scoreCharP
  infer_instance

/-- The acceptance condition stated by the spec: exactly sixteen hex digits,
then one score character, and the digits decode to a valid position code. -/
def acceptsHexLineSpec (line : List Char) : Prop :=
  line.length = 17 ∧ (∀ c ∈ line.take 16, isHexDigit c) ∧
  (Position.from_position_code (hexValue (line.take 16))).isSome = true ∧
  (line.drop 16).length = 1 ∧ scoreCharP ((line.drop 16).headD ' ')

/-- The acceptance condition the code implements: the sixteen-character
hex field may also consist of a `+` sign followed by fifteen hex digits. -/
def acceptsHexLine (line : List Char) : Prop :=
  line.length = 17 ∧
  ((∀ c ∈ line.take 16, isHexDigit c) ∨
    ((line.take 16).headD ' ' = '+' ∧ (line.take 16).tail ≠ [] ∧
      ∀ c ∈ (line.take 16).tail, isHexDigit c)) ∧
  (Position.from_position_code (signedHexValue (line.take 16))).isSome = true ∧
  (line.drop 16).length = 1 ∧ scoreCharP ((line.drop 16).headD ' ')

instance (line : List Char) : Decidable (acceptsHexLineSpec line) := by
  unfold acceptsHexLineSpec
  infer_instance

instance (line : List Char) : Decidable (acceptsHexLine line) := by
  unfold acceptsHexLine
  infer_instance

theorem hexVal_lt (c : Char) : hexVal c < 16 := by
  unfold hexVal
  split
  · rename_i h
    rw [Char.isDigit] at h
    simp only [Bool.and_eq_true, decide_eq_true_eq] at h
    have h2 : c.toNat ≤ 57 := h.2
    have h0 : Char.toNat '0' = 48 := rfl
    omega
  · split
    · rename_i h
      have h2 : c.toNat ≤ 102 := Char.le_def.mp h.2
      have h1 : 97 ≤ c.toNat := Char.le_def.mp h.1
      have h0 : Char.toNat 'a' = 97 := rfl
      omega
    · split
      · rename_i h
        have h2 : c.toNat ≤ 70 := Char.le_def.mp h.2
        have h1 : 65 ≤ c.toNat := Char.le_def.mp h.1
        have h0 : Char.toNat 'A' = 65 := rfl
        omega
      · omega

theorem go_cons (c : Char) (rest : List Char) (acc : Nat) :
    hexDigitsVal.go (c :: rest) acc =
      if isHexDigit c then hexDigitsVal.go rest (acc * 16 + hexVal c) else none := by
  rw [hexDigitsVal.go]
  simp only [hexVal]
  by_cases h1 : c.isDigit = true
  · rw [if_pos h1, if_pos h1, if_pos (show isHexDigit c from Or.inl h1)]
  · rw [if_neg h1, if_neg h1]
    by_cases h2 : 'a' ≤ c ∧ c ≤ 'f'
    · rw [if_pos h2, if_pos h2, if_pos (show isHexDigit c from Or.inr (Or.inl h2))]
    · rw [if_neg h2, if_neg h2]
      by_cases h3 : 'A' ≤ c ∧ c ≤ 'F'
      · rw [if_pos h3, if_pos h3, if_pos (show isHexDigit c from Or.inr (Or.inr h3))]
      · rw [if_neg h3, if_neg h3, if_neg (by simp [isHexDigit, h1, h2, h3])]

theorem go_spec : ∀ (cs : List Char) (acc : Nat),
    hexDigitsVal.go cs acc =
      if ∀ c ∈ cs, isHexDigit c then
        some (cs.foldl (fun a c => a * 16 + hexVal c) acc)
      else none := by
  intro cs
  induction cs with
  | nil => intro acc; simp [hexDigitsVal.go]
  | cons c rest ih =>
    intro acc
    rw [go_cons]
    by_cases hc : isHexDigit c
    · rw [if_pos hc, ih]
      by_cases h2 : ∀ d ∈ rest, isHexDigit d
      · rw [if_pos h2, if_pos ?_, List.foldl_cons]
        intro d hd
        rcases List.mem_cons.mp hd with rfl | hd
        · exact hc
        · exact h2 d hd
      · rw [if_neg h2, if_neg (fun h => h2 (fun d hd => h d (List.mem_cons_of_mem c hd)))]
    · rw [if_neg hc, if_neg (fun h => hc (h c (List.mem_cons_self c rest)))]

theorem foldl_hex_lt : ∀ (cs : List Char) (acc : Nat),
    cs.foldl (fun a c => a * 16 + hexVal c) acc < (acc + 1) * 16 ^ cs.length := by
  intro cs
  induction cs with
  | nil => intro acc; simp
  | cons c rest ih =>
    intro acc
    rw [List.foldl_cons]
    have h1 := ih (acc * 16 + hexVal c)
    have h2 := hexVal_lt c
    have h3 : (acc * 16 + hexVal c + 1) * 16 ^ rest.length ≤ (acc + 1) * 16 ^ (c :: rest).length := by
      have hstep : acc * 16 + hexVal c + 1 ≤ (acc + 1) * 16 := by omega
      calc (acc * 16 + hexVal c + 1) * 16 ^ rest.length
          ≤ ((acc + 1) * 16) * 16 ^ rest.length := Nat.mul_le_mul_right _ hstep
        _ = (acc + 1) * 16 ^ (rest.length + 1) := by ring
        _ = (acc + 1) * 16 ^ (c :: rest).length := by rw [List.length_cons]
    exact lt_of_lt_of_le h1 h3

theorem hexDigitsVal_eq (cs : List Char) (hlen : cs.length ≤ 16) :
    hexDigitsVal cs =
      if cs ≠ [] ∧ ∀ c ∈ cs, isHexDigit c then some (hexValue cs) else none := by
  rw [hexDigitsVal]
  by_cases h0 : cs = []
  · rw [if_pos h0, if_neg (by simp [h0])]
  · rw [if_neg h0, go_spec]
    by_cases hall : ∀ c ∈ cs, isHexDigit c
    · rw [if_pos hall]
      dsimp only
      have hlt : cs.foldl (fun a c => a * 16 + hexVal c) 0 < M64 := by
        have h1 := foldl_hex_lt cs 0
        norm_num at h1
        have h2 : (16 : Nat) ^ cs.length ≤ 16 ^ 16 := Nat.pow_le_pow_right (by norm_num) hlen
        have h3 : (16 : Nat) ^ 16 = 2 ^ 64 := by norm_num
        show _ < 2 ^ 64
        omega
      rw [if_pos hlt, if_pos ⟨h0, hall⟩]
      rfl
    · rw [if_neg hall]
      dsimp only
      rw [if_neg (fun h => hall h.2)]

theorem from_str_radix_16_eq (cs : List Char) (hlen : cs.length ≤ 16) :
    from_str_radix_16 cs =
      if cs ≠ [] ∧
          ((∀ c ∈ cs, isHexDigit c) ∨
            (cs.headD ' ' = '+' ∧ cs.tail ≠ [] ∧ ∀ c ∈ cs.tail, isHexDigit c)) then
        some (signedHexValue cs)
      else none := by
  cases cs with
  | nil =>
    show hexDigitsVal [] = _
    rw [if_neg (by simp), hexDigitsVal, if_pos rfl]
  | cons c rest =>
    by_cases hc : c = '+'
    · subst hc
      show hexDigitsVal rest = _
      rw [hexDigitsVal_eq rest (by simp at hlen; omega)]
      have hplus : ¬ isHexDigit '+' := by decide
      by_cases h2 : rest ≠ [] ∧ ∀ d ∈ rest, isHexDigit d
      · rw [if_pos h2, if_pos ⟨by simp, Or.inr ⟨rfl, h2.1, h2.2⟩⟩]
        simp [signedHexValue]
      · rw [if_neg h2, if_neg ?_]
        rintro ⟨-, h | ⟨-, hne, hall⟩⟩
        · exact hplus (h '+' (List.mem_cons_self _ _))
        · exact h2 ⟨by simpa using hne, by simpa using hall⟩
    · have harm : from_str_radix_16 (c :: rest) = hexDigitsVal (c :: rest) := by
        rw [from_str_radix_16.eq_def]
        split
        · rename_i heq
          injection heq with h1 h2
          exact absurd h1 hc
        · rfl
      rw [harm, hexDigitsVal_eq _ hlen]
      by_cases hall : ∀ d ∈ c :: rest, isHexDigit d
      · rw [if_pos ⟨by simp, hall⟩, if_pos ⟨by simp, Or.inl hall⟩]
        simp [signedHexValue, hc]
      · rw [if_neg (fun h => hall h.2), if_neg ?_]
        rintro ⟨-, h | ⟨hh, -, -⟩⟩
        · exact hall h
        · exact hc (by simpa using hh)

theorem from_char_unknown (c : Char) :
    (Score.from_char c = Score.Unknown) ↔ ¬ scoreCharP c := by
  rw [Score.from_char.eq_def]
  split <;> simp_all [scoreCharP]

/-- **C8** (amended): `BookEntry::from_hex_string` accepts a line iff it has
exactly seventeen characters, the first sixteen form a hexadecimal field
that is either sixteen hex digits or a `+` sign followed by fifteen hex
digits (`u64::from_str_radix` tolerates a leading plus sign), the field's
value decodes to a valid position code, and the final character is one of
the five score characters `-<=>+`. -/
theorem claim_C8 (line : List Char) :
    (BookEntry.from_hex_string line).isSome = true ↔ acceptsHexLine line := by
  rw [BookEntry.from_hex_string]
  dsimp only
  by_cases hlen : line.length = 17
  · rw [if_neg (by omega)]
    have htake : (line.take 16).length = 16 := by
      rw [List.length_take]
      omega
    rw [from_str_radix_16_eq _ (by omega)]
    by_cases hacc : (∀ c ∈ line.take 16, isHexDigit c) ∨
        ((line.take 16).headD ' ' = '+' ∧ (line.take 16).tail ≠ [] ∧
          ∀ c ∈ (line.take 16).tail, isHexDigit c)
    · rw [if_pos ⟨by intro h; rw [h] at htake; simp at htake, hacc⟩]
      dsimp only
      cases hfp : Position.from_position_code (signedHexValue (line.take 16)) with
      | none =>
        refine iff_of_false (by simp) ?_
        intro hA
        have h5 := hA.2.2.1
        rw [hfp] at h5
        simp at h5
      | some pos =>
        dsimp only
        have hdlen : (line.drop 16).length = 1 := by
          rw [List.length_drop]
          omega
        rw [Score.from_string, if_pos hdlen]
        by_cases hsc : scoreCharP ((line.drop 16).headD ' ')
        · rw [if_neg (fun h => (from_char_unknown _).mp h hsc)]
          refine iff_of_true (by simp) ?_
          exact ⟨hlen, hacc, by rw [hfp]; rfl, hdlen, hsc⟩
        · rw [if_pos ((from_char_unknown _).mpr hsc)]
          refine iff_of_false (by simp) ?_
          intro hA
          exact hsc hA.2.2.2.2
    · rw [if_neg (fun h => hacc h.2)]
      refine iff_of_false (by simp) ?_
      intro hA
      exact hacc hA.2.1
  · rw [if_pos (by omega)]
    refine iff_of_false (by simp) ?_
    intro hA
    exact hlen hA.1

/-- Counterexample to C8 as stated: the seventeen-character line
`+000040810204081=` is accepted by `from_hex_string` (its hex field parses
to `BOTTOM_ROW`, the empty position's code, and `=` is a score character),
yet its first sixteen characters are not sixteen hexadecimal digits — the
leading `+` is no hex digit — so the claimed acceptance condition rejects
it, contradicting the claimed "every other line is rejected with None". -/
theorem claim_C8_counterexample :
    (BookEntry.from_hex_string
      ['+','0','0','0','0','4','0','8','1','0','2','0','4','0','8','1','=']).isSome = true ∧
    ¬ isHexDigit '+' ∧
    ¬ (∀ c ∈ (['+','0','0','0','0','4','0','8','1','0','2','0','4','0','8','1','='] :
        List Char).take 16, isHexDigit c) ∧
    ¬ acceptsHexLineSpec
      ['+','0','0','0','0','4','0','8','1','0','2','0','4','0','8','1','='] := by
  refine ⟨by decide, by decide, by decide, by decide⟩

/-- Witness for C8 on a well-formed sixteen-digit line. -/
theorem claim_C8_witness :
    (BookEntry.from_hex_string
      ['0','0','0','0','0','4','0','8','1','0','2','0','4','0','8','1','=']).isSome = true :=
  (claim_C8 ['0','0','0','0','0','4','0','8','1','0','2','0','4','0','8','1','=']).mpr
    (by decide)
